import Mathlib

/-!
# Verification of the `obsidian-better-graph-3d` graph core

This file gives a shallow embedding of the graph-synchronization layer
(`Graph3DLayout` in `src/Graph3DView.ts`), of the growable render buffers
(`Graph3DRenderer.updateNodePositions` / `updateLinkPositions` in
`src/Graph3DRenderer.ts`), and of the label rasterization path
(`NodeLabel` in `src/renderer/NodeLabel.ts`), and proves or refutes the
specified properties of these components.

Modelling conventions:
* JavaScript `Map` objects (`nameToId`, the `ngraph` node map) are modelled as
  association lists in insertion order; `Map.set` updates the first matching
  entry in place and appends a new entry otherwise, exactly like `Map`.
* `Record<string, T>` snapshots are association lists as well; property lookup
  is first-match lookup, and `Object.entries`/`Object.keys` iterate the list.
* `ngraph.graph` as used here: `addNode(id, data)` replaces the data of an
  existing node in place (keeping iteration order) or appends a fresh node;
  `addLink` appends; `hasLink` tests for a link with the given endpoints;
  `removeLink` removes the record; `forEachLinkedNode(id, f, true)` visits the
  outgoing links of `id` and the handler may remove the visited link, which
  over the whole traversal amounts to filtering the link list.
* Numbers used as handles, counts and link payloads are naturals (they are
  small nonnegative integers in the source).  JavaScript truthiness of a
  looked-up weight (`!allTargets[targetFile]`) is `none` or `some 0` ↦ false.
* `forEachNode` iterates the node map including entries added during the
  traversal; in `syncWithCache` the traversal adds no nodes (every label it
  touches was already inserted by the preceding `fromMetadataCache` call, a
  fact proved below as `syncNode_nodes_eq`), so folding over the node-id list
  captured at the start of the traversal is faithful.
-/

namespace BetterGraph3D

/-! ## Association lists (JavaScript `Map` / plain-object records) -/

/-- First-match lookup, the semantics of `Map.get` and of property access on a
record object. -/
def alookup {α β : Type} [DecidableEq α] : List (α × β) → α → Option β
  | [], _ => none
  | (k, v) :: rest, k' => if k' = k then some v else alookup rest k'

/-- `Map.set`: replace the value of the first entry with this key, keeping
insertion order, or append a fresh entry. -/
def aset {α β : Type} [DecidableEq α] : List (α × β) → α → β → List (α × β)
  | [], k, v => [(k, v)]
  | (k0, v0) :: rest, k, v =>
      if k = k0 then (k0, v) :: rest else (k0, v0) :: aset rest k v

/-- The keys of an association list, in insertion order. -/
def keysOf {α β : Type} (l : List (α × β)) : List α := l.map Prod.fst

/-! ## The graph model (`ngraph.graph` as instantiated in `Graph3DView.ts`) -/

/-- Node payload: `GraphNode = { label: string, resolved: boolean }`. -/
structure GraphNode where
  label : String
  resolved : Bool
deriving DecidableEq

/-- A directed link with its integer payload (the render-slot index). -/
structure GLink where
  fromId : Nat
  toId : Nat
  data : Nat
deriving DecidableEq

/-- The `ngraph` graph: nodes in insertion order and the link list. -/
structure VaultGraph where
  nodes : List (Nat × GraphNode)
  links : List GLink
deriving DecidableEq

def VaultGraph.getNode (g : VaultGraph) (i : Nat) : Option GraphNode :=
  alookup g.nodes i

def VaultGraph.getNodeCount (g : VaultGraph) : Nat := g.nodes.length

def VaultGraph.getLinkCount (g : VaultGraph) : Nat := g.links.length

/-- `addNode(id, data)`: replace the data of an existing node in place, or
append a fresh node. -/
def VaultGraph.addNode (g : VaultGraph) (i : Nat) (d : GraphNode) : VaultGraph :=
  { g with nodes := aset g.nodes i d }

/-- `hasLink(from, to)`: is there a link with these endpoints? -/
def VaultGraph.hasLink (g : VaultGraph) (s t : Nat) : Bool :=
  g.links.any (fun l => l.fromId == s && l.toId == t)

/-- `addLink(from, to, data)`: append a link record. -/
def VaultGraph.addLink (g : VaultGraph) (s t d : Nat) : VaultGraph :=
  { g with links := g.links ++ [⟨s, t, d⟩] }

/-! ## The synchronizer (`Graph3DLayout` in `src/Graph3DView.ts`) -/

/-- The layout state: the `nameToId` map and the graph.  (The force-layout
object only mirrors the graph and plays no role in the claims.) -/
structure Graph3DLayout where
  nameToId : List (String × Nat)
  graph : VaultGraph
deriving DecidableEq

/-- The state built by the `Graph3DLayout` constructor. -/
def emptyLayout : Graph3DLayout := ⟨[], ⟨[], []⟩⟩

/-- `addOrGetNode`: look the label up in `nameToId`, defaulting to the current
node count, then unconditionally `addNode` (which overwrites the payload of an
existing node) and record the mapping. -/
def Graph3DLayout.addOrGetNode (st : Graph3DLayout) (node : GraphNode) :
    Nat × Graph3DLayout :=
  let nodeId := (alookup st.nameToId node.label).getD st.graph.getNodeCount
  (nodeId,
   { nameToId := aset st.nameToId node.label nodeId,
     graph := st.graph.addNode nodeId node })

/-- `link(sourceId, targetIndex)`: add a link carrying `2 * linkCount` only if
absent. -/
def Graph3DLayout.link (st : Graph3DLayout) (s t : Nat) : Graph3DLayout :=
  if st.graph.hasLink s t then st
  else { st with graph := st.graph.addLink s t (2 * st.graph.getLinkCount) }

/-- A `Record<target, weight>` of one source. -/
abbrev TargetMap := List (String × Nat)

/-- A `Record<source, Record<target, weight>>` snapshot half. -/
abbrev LinkMap := List (String × TargetMap)

/-- The metadata-cache snapshot consumed by the synchronizer. -/
structure MetadataCache where
  resolvedLinks : LinkMap
  unresolvedLinks : LinkMap
deriving DecidableEq

/-- The inner loop of `addLinks` (and of the per-node addition passes of
`syncWithCache`): for each target key, `addOrGetNode` then `link`. -/
def Graph3DLayout.addTargets (st : Graph3DLayout) (sourceId : Nat)
    (resolved : Bool) (targets : TargetMap) : Graph3DLayout :=
  targets.foldl
    (fun acc t =>
      let r := acc.addOrGetNode ⟨t.1, resolved⟩
      r.2.link sourceId r.1)
    st

/-- `addLinks(links, resolved)`. -/
def Graph3DLayout.addLinks (st : Graph3DLayout) (links : LinkMap)
    (resolved : Bool) : Graph3DLayout :=
  links.foldl
    (fun acc entry =>
      let r := acc.addOrGetNode ⟨entry.1, true⟩
      r.2.addTargets r.1 resolved entry.2)
    st

/-- `fromMetadataCache`: resolved pass, then unresolved pass. -/
def Graph3DLayout.fromMetadataCache (st : Graph3DLayout) (m : MetadataCache) :
    Graph3DLayout :=
  (st.addLinks m.resolvedLinks true).addLinks m.unresolvedLinks false

/-- JavaScript truthiness of a looked-up numeric weight: absent and `0` are
falsy. -/
def truthy : Option Nat → Bool
  | none => false
  | some w => w != 0

/-- Lookup in `{ ...resolvedTargets, ...unresolvedTargets }`: the unresolved
spread overrides the resolved one. -/
def mergedLookup (rT uT : TargetMap) (t : String) : Option Nat :=
  match alookup uT t with
  | some w => some w
  | none => alookup rT t

/-- The removal test of the `nodeHandler` in `syncWithCache`:
`targetFile && !allTargets[targetFile]`.  A missing target node (or an empty
label, which is falsy) blocks removal. -/
def staleTarget (g : VaultGraph) (rT uT : TargetMap) (l : GLink) : Bool :=
  match g.getNode l.toId with
  | none => false
  | some d => if d.label = "" then false else !(truthy (mergedLookup rT uT d.label))

/-- The net effect of `forEachLinkedNode(source.id, nodeHandler, true)`:
remove every outgoing link of `sourceId` whose target is stale. -/
def Graph3DLayout.pruneSource (st : Graph3DLayout) (sourceId : Nat)
    (rT uT : TargetMap) : Graph3DLayout :=
  { st with graph := { st.graph with
      links := st.graph.links.filter
        (fun l => !(l.fromId == sourceId && staleTarget st.graph rT uT l)) } }

/-- One iteration of the `forEachNode` loop of `syncWithCache`: read the
source's current label, fetch its target maps (defaulting to `{}`), run the
two addition passes, then the removal pass. -/
def Graph3DLayout.syncNode (m : MetadataCache) (st : Graph3DLayout)
    (sourceId : Nat) : Graph3DLayout :=
  match st.graph.getNode sourceId with
  | none => st
  | some d =>
    let rT := (alookup m.resolvedLinks d.label).getD []
    let uT := (alookup m.unresolvedLinks d.label).getD []
    let st1 := st.addTargets sourceId true rT
    let st2 := st1.addTargets sourceId false uT
    st2.pruneSource sourceId rT uT

/-- `syncWithCache`: `fromMetadataCache`, then the per-node update/removal
loop over the nodes present at that point. -/
def Graph3DLayout.syncWithCache (st : Graph3DLayout) (m : MetadataCache) :
    Graph3DLayout :=
  let st1 := st.fromMetadataCache m
  (keysOf st1.graph.nodes).foldl (Graph3DLayout.syncNode m) st1

/-! ## Observations of the layout state used by the claims -/

/-- The handle assigned to a label. -/
def Graph3DLayout.handleOf (st : Graph3DLayout) (l : String) : Option Nat :=
  alookup st.nameToId l

def Graph3DLayout.nodeCount (st : Graph3DLayout) : Nat := st.graph.getNodeCount

def Graph3DLayout.linkCount (st : Graph3DLayout) : Nat := st.graph.getLinkCount

/-- The label of the node with a given id. -/
def Graph3DLayout.labelOfId (st : Graph3DLayout) (i : Nat) : Option String :=
  (st.graph.getNode i).map GraphNode.label

/-- The resolved flag currently stored for a label. -/
def Graph3DLayout.flagOf (st : Graph3DLayout) (l : String) : Option Bool :=
  match st.handleOf l with
  | none => none
  | some i => (st.graph.getNode i).map GraphNode.resolved

/-! ## Association-list lemmas -/

section AListLemmas

variable {α β : Type} [DecidableEq α]

theorem alookup_aset_self (l : List (α × β)) (k : α) (v : β) :
    alookup (aset l k v) k = some v := by
  induction l with
  | nil => simp [aset, alookup]
  | cons p rest ih =>
      obtain ⟨k0, v0⟩ := p
      by_cases h : k = k0
      · simp [aset, h, alookup]
      · simp [aset, h, alookup, ih]

theorem alookup_aset_of_ne (l : List (α × β)) {k k' : α} (v : β) (h : k' ≠ k) :
    alookup (aset l k v) k' = alookup l k' := by
  induction l with
  | nil => simp [aset, alookup, h]
  | cons p rest ih =>
      obtain ⟨k0, v0⟩ := p
      by_cases h0 : k = k0
      · subst h0
        simp [aset, alookup, h]
      · simp [aset, h0, alookup, ih]

theorem aset_of_alookup_eq {l : List (α × β)} {k : α} {v : β}
    (h : alookup l k = some v) : aset l k v = l := by
  induction l with
  | nil => simp [alookup] at h
  | cons p rest ih =>
      obtain ⟨k0, v0⟩ := p
      by_cases h0 : k = k0
      · subst h0
        simp [alookup] at h
        simp [aset, h]
      · simp [alookup, h0] at h
        simp [aset, h0, ih h]

theorem keysOf_aset_of_some {l : List (α × β)} {k : α} {v' : β} (v : β)
    (h : alookup l k = some v') : keysOf (aset l k v) = keysOf l := by
  induction l with
  | nil => simp [alookup] at h
  | cons p rest ih =>
      obtain ⟨k0, v0⟩ := p
      by_cases h0 : k = k0
      · simp [aset, h0, keysOf]
      · simp [alookup, h0] at h
        simp [aset, h0, keysOf] at ih ⊢
        exact ih h

theorem keysOf_aset_of_none {l : List (α × β)} {k : α} (v : β)
    (h : alookup l k = none) : keysOf (aset l k v) = keysOf l ++ [k] := by
  induction l with
  | nil => simp [aset, keysOf]
  | cons p rest ih =>
      obtain ⟨k0, v0⟩ := p
      by_cases h0 : k = k0
      · simp [alookup, h0] at h
      · simp [alookup, h0] at h
        simp [aset, h0, keysOf] at ih ⊢
        exact ih h

theorem alookup_append_of_some {l : List (α × β)} {k : α} {v : β}
    (e : List (α × β)) (h : alookup l k = some v) :
    alookup (l ++ e) k = some v := by
  induction l with
  | nil => simp [alookup] at h
  | cons p rest ih =>
      obtain ⟨k0, v0⟩ := p
      by_cases h0 : k = k0
      · simp [alookup, h0] at h ⊢
        exact h
      · simp [alookup, h0] at h ⊢
        exact ih h

theorem alookup_append_of_none {l : List (α × β)} {k : α}
    (e : List (α × β)) (h : alookup l k = none) :
    alookup (l ++ e) k = alookup e k := by
  induction l with
  | nil => simp
  | cons p rest ih =>
      obtain ⟨k0, v0⟩ := p
      by_cases h0 : k = k0
      · simp [alookup, h0] at h
      · simp [alookup, h0] at h ⊢
        exact ih h

theorem alookup_eq_none_iff {l : List (α × β)} {k : α} :
    alookup l k = none ↔ k ∉ keysOf l := by
  induction l with
  | nil => simp [alookup, keysOf]
  | cons p rest ih =>
      obtain ⟨k0, v0⟩ := p
      by_cases h0 : k = k0
      · simp [alookup, h0, keysOf]
      · simp [alookup, h0, keysOf, h0] at ih ⊢
        exact ih

theorem mem_of_alookup_eq_some {l : List (α × β)} {k : α} {v : β}
    (h : alookup l k = some v) : (k, v) ∈ l := by
  induction l with
  | nil => simp [alookup] at h
  | cons p rest ih =>
      obtain ⟨k0, v0⟩ := p
      by_cases h0 : k = k0
      · subst h0
        simp [alookup] at h
        simp [h]
      · simp [alookup, h0] at h
        simp [ih h]

theorem alookup_isSome_of_mem {l : List (α × β)} {k : α} {v : β}
    (h : (k, v) ∈ l) : (alookup l k).isSome := by
  induction l with
  | nil => simp at h
  | cons p rest ih =>
      obtain ⟨k0, v0⟩ := p
      by_cases h0 : k = k0
      · simp [alookup, h0]
      · rcases List.mem_cons.mp h with h | h
        · cases h
          exact absurd rfl h0
        · simpa [alookup, h0] using ih h

theorem alookup_of_mem_of_nodup {l : List (α × β)} {k : α} {v : β}
    (h : (k, v) ∈ l) (hn : (keysOf l).Nodup) : alookup l k = some v := by
  induction l with
  | nil => simp at h
  | cons p rest ih =>
      obtain ⟨k0, v0⟩ := p
      have hn2 : k0 ∉ keysOf rest ∧ (keysOf rest).Nodup := by
        simpa [keysOf] using hn
      rcases List.mem_cons.mp h with h1 | h1
      · cases h1
        simp [alookup]
      · have hk : k ≠ k0 := by
          intro he
          subst he
          apply hn2.1
          simp [keysOf]
          exact ⟨v, h1⟩
        simp [alookup, hk]
        exact ih h1 hn2.2

theorem mem_aset {l : List (α × β)} {k : α} {v : β} {p : α × β}
    (h : p ∈ aset l k v) : p ∈ l ∨ p = (k, v) := by
  induction l with
  | nil => simpa [aset] using h
  | cons q rest ih =>
      obtain ⟨k0, v0⟩ := q
      by_cases h0 : k = k0
      · subst h0
        simp [aset] at h
        rcases h with h | h
        · right; simp [h]
        · left; simp [h]
      · simp [aset, h0] at h
        rcases h with h | h
        · left; simp [h]
        · rcases ih h with h | h
          · left; simp [h]
          · right; exact h

theorem mem_aset_of_mem {l : List (α × β)} {k : α} {v : β} {p : α × β}
    (h : p ∈ l) (hk : p.1 ≠ k) : p ∈ aset l k v := by
  induction l with
  | nil => simp at h
  | cons q rest ih =>
      obtain ⟨k0, v0⟩ := q
      by_cases h0 : k = k0
      · subst h0
        have hp : p ∈ rest := by
          rcases List.mem_cons.mp h with h1 | h1
          · exact absurd (by rw [h1]) hk
          · exact h1
        simp [aset]
        right
        exact hp
      · simp [aset, h0]
        rcases List.mem_cons.mp h with h | h
        · left; exact h
        · right; exact ih h

theorem length_aset_of_some {l : List (α × β)} {k : α} {v' : β} (v : β)
    (h : alookup l k = some v') : (aset l k v).length = l.length := by
  have := keysOf_aset_of_some (l := l) (k := k) v h
  have h1 : (keysOf (aset l k v)).length = (keysOf l).length := by rw [this]
  simpa [keysOf] using h1

theorem length_aset_of_none {l : List (α × β)} {k : α} (v : β)
    (h : alookup l k = none) : (aset l k v).length = l.length + 1 := by
  have := keysOf_aset_of_none (l := l) (k := k) v h
  have h1 : (keysOf (aset l k v)).length = (keysOf l).length + 1 := by
    rw [this]; simp
  simpa [keysOf] using h1

theorem alookup_map_snd {γ : Type} (f : β → γ) (l : List (α × β)) (k : α) :
    alookup (l.map (fun p => (p.1, f p.2))) k = (alookup l k).map f := by
  induction l with
  | nil => simp [alookup]
  | cons p rest ih =>
      obtain ⟨k0, v0⟩ := p
      by_cases h0 : k = k0
      · simp [alookup, h0]
      · simp [alookup, h0, ih]

theorem aset_of_alookup_none {l : List (α × β)} {k : α} (v : β)
    (h : alookup l k = none) : aset l k v = l ++ [(k, v)] := by
  induction l with
  | nil => simp [aset]
  | cons p rest ih =>
      obtain ⟨k0, v0⟩ := p
      by_cases h0 : k = k0
      · simp [alookup, h0] at h
      · simp [alookup, h0] at h
        simp [aset, h0, ih h]

theorem map_aset_of_some {γ : Type} (f : β → γ) {l : List (α × β)} {k : α}
    {v v' : β} (h : alookup l k = some v') (hf : f v = f v') :
    (aset l k v).map (fun p => (p.1, f p.2)) = l.map (fun p => (p.1, f p.2)) := by
  induction l with
  | nil => simp [alookup] at h
  | cons p rest ih =>
      obtain ⟨k0, v0⟩ := p
      by_cases h0 : k = k0
      · simp [alookup, h0] at h
        subst h
        simp [aset, h0, hf]
      · simp [alookup, h0] at h
        simp [aset, h0, ih h]

end AListLemmas

/-! ## The reachable-state invariant of the synchronizer -/

/-- Well-formedness of a `Graph3DLayout` state, established by the constructor
and preserved by every synchronizer operation: `nameToId` and the node map
index each other (so label → handle is one-to-one), node ids are pairwise
distinct and densely allocated below the node count. -/
structure Inv (st : Graph3DLayout) : Prop where
  lookup_label : ∀ p ∈ st.graph.nodes, alookup st.nameToId p.2.label = some p.1
  handle_node : ∀ p ∈ st.nameToId, ∃ q ∈ st.graph.nodes, q.1 = p.2 ∧ q.2.label = p.1
  ids_nodup : (keysOf st.graph.nodes).Nodup
  ids_lt : ∀ p ∈ st.graph.nodes, p.1 < st.graph.nodes.length
  names_nodup : (keysOf st.nameToId).Nodup

theorem Inv_empty : Inv emptyLayout := by
  constructor <;> simp [emptyLayout, keysOf]

/-- Under the invariant, a recorded handle points at a node carrying exactly
that label. -/
theorem Inv.node_of_handle {st : Graph3DLayout} (h : Inv st) {l : String}
    {i : Nat} (hl : st.handleOf l = some i) :
    ∃ d, st.graph.getNode i = some d ∧ d.label = l := by
  have hm : (l, i) ∈ st.nameToId := mem_of_alookup_eq_some hl
  obtain ⟨q, hq, hq1, hq2⟩ := h.handle_node _ hm
  obtain ⟨qi, qd⟩ := q
  simp at hq1 hq2
  refine ⟨qd, ?_, hq2⟩
  subst hq1
  exact alookup_of_mem_of_nodup hq h.ids_nodup

/-- Under the invariant, a stored node's label maps back to its id. -/
theorem Inv.handle_of_node {st : Graph3DLayout} (h : Inv st) {i : Nat}
    {d : GraphNode} (hd : st.graph.getNode i = some d) :
    st.handleOf d.label = some i :=
  h.lookup_label _ (mem_of_alookup_eq_some hd)

/-- Under the invariant, the next node count is a fresh id. -/
theorem Inv.count_fresh {st : Graph3DLayout} (h : Inv st) :
    alookup st.graph.nodes st.graph.getNodeCount = none := by
  rw [alookup_eq_none_iff]
  intro hmem
  simp only [keysOf, List.mem_map] at hmem
  obtain ⟨p, hp, hp1⟩ := hmem
  have h2 := h.ids_lt p hp
  rw [hp1] at h2
  simp [VaultGraph.getNodeCount] at h2

/-! ## Per-operation structure lemmas -/

/-- The id–label view of the node map, used to state that node ids and their
labels are append-only across synchronizer operations. -/
def idLabels (st : Graph3DLayout) : List (Nat × String) :=
  st.graph.nodes.map (fun p => (p.1, p.2.label))

theorem labelOfId_eq_alookup (st : Graph3DLayout) (i : Nat) :
    st.labelOfId i = alookup (idLabels st) i := by
  simp [Graph3DLayout.labelOfId, idLabels, alookup_map_snd, VaultGraph.getNode]

/-- Append-only growth of the label/handle and id/label tables from one state
to another; all synchronizer operations produce such growth. -/
def StepOk (st st' : Graph3DLayout) : Prop :=
  (∃ e, st'.nameToId = st.nameToId ++ e) ∧ (∃ e, idLabels st' = idLabels st ++ e)

theorem stepOk_refl (st : Graph3DLayout) : StepOk st st :=
  ⟨⟨[], by simp⟩, ⟨[], by simp⟩⟩

theorem stepOk_trans {s1 s2 s3 : Graph3DLayout} (h1 : StepOk s1 s2)
    (h2 : StepOk s2 s3) : StepOk s1 s3 := by
  obtain ⟨⟨e1, he1⟩, ⟨f1, hf1⟩⟩ := h1
  obtain ⟨⟨e2, he2⟩, ⟨f2, hf2⟩⟩ := h2
  exact ⟨⟨e1 ++ e2, by simp [he2, he1]⟩, ⟨f1 ++ f2, by simp [hf2, hf1]⟩⟩

theorem StepOk.of_eq {st st' : Graph3DLayout} (h1 : st'.nameToId = st.nameToId)
    (h2 : st'.graph.nodes = st.graph.nodes) : StepOk st st' :=
  ⟨⟨[], by simp [h1]⟩, ⟨[], by simp [idLabels, h2]⟩⟩

theorem StepOk.handleOf_mono {st st' : Graph3DLayout} (h : StepOk st st')
    {l : String} {i : Nat} (hl : st.handleOf l = some i) :
    st'.handleOf l = some i := by
  obtain ⟨⟨e, he⟩, _⟩ := h
  unfold Graph3DLayout.handleOf at hl ⊢
  rw [he]
  exact alookup_append_of_some e hl

theorem StepOk.labelOfId_mono {st st' : Graph3DLayout} (h : StepOk st st')
    {i : Nat} {l : String} (hl : st.labelOfId i = some l) :
    st'.labelOfId i = some l := by
  obtain ⟨_, ⟨e, he⟩⟩ := h
  rw [labelOfId_eq_alookup] at hl ⊢
  rw [he]
  exact alookup_append_of_some e hl

/-- If both states satisfy the invariant and no new labels appear, then
node labels read in either state agree wherever the earlier one is defined. -/
theorem Inv_congr {st st' : Graph3DLayout} (h1 : st'.nameToId = st.nameToId)
    (h2 : st'.graph.nodes = st.graph.nodes) (h : Inv st) : Inv st' := by
  constructor
  · rw [h1, h2]; exact h.lookup_label
  · rw [h1, h2]; exact h.handle_node
  · rw [h2]; exact h.ids_nodup
  · rw [h2]; exact h.ids_lt
  · rw [h1]; exact h.names_nodup

/-! ## `addOrGetNode` characterization -/

theorem addOrGetNode_links (st : Graph3DLayout) (d : GraphNode) :
    (st.addOrGetNode d).2.graph.links = st.graph.links := rfl

theorem addOrGetNode_fst_present {st : Graph3DLayout} {d : GraphNode} {i : Nat}
    (hl : st.handleOf d.label = some i) : (st.addOrGetNode d).1 = i := by
  simp only [Graph3DLayout.handleOf] at hl
  simp [Graph3DLayout.addOrGetNode, hl]

theorem addOrGetNode_fst_absent {st : Graph3DLayout} {d : GraphNode}
    (hl : st.handleOf d.label = none) :
    (st.addOrGetNode d).1 = st.nodeCount := by
  simp only [Graph3DLayout.handleOf] at hl
  simp [Graph3DLayout.addOrGetNode, hl, Graph3DLayout.nodeCount]

theorem addOrGetNode_nameToId_present {st : Graph3DLayout} {d : GraphNode}
    {i : Nat} (hl : st.handleOf d.label = some i) :
    (st.addOrGetNode d).2.nameToId = st.nameToId := by
  simp only [Graph3DLayout.handleOf] at hl
  simp [Graph3DLayout.addOrGetNode, hl, aset_of_alookup_eq hl]

theorem addOrGetNode_nameToId_absent {st : Graph3DLayout} {d : GraphNode}
    (hl : st.handleOf d.label = none) :
    (st.addOrGetNode d).2.nameToId = st.nameToId ++ [(d.label, st.nodeCount)] := by
  simp only [Graph3DLayout.handleOf] at hl
  simp [Graph3DLayout.addOrGetNode, hl, aset_of_alookup_none _ hl,
    Graph3DLayout.nodeCount]

theorem addOrGetNode_nodes_present {st : Graph3DLayout} {d : GraphNode}
    {i : Nat} (hl : st.handleOf d.label = some i) :
    (st.addOrGetNode d).2.graph.nodes = aset st.graph.nodes i d := by
  simp only [Graph3DLayout.handleOf] at hl
  simp [Graph3DLayout.addOrGetNode, hl, VaultGraph.addNode]

theorem addOrGetNode_nodes_absent {st : Graph3DLayout} {d : GraphNode}
    (h : Inv st) (hl : st.handleOf d.label = none) :
    (st.addOrGetNode d).2.graph.nodes
      = st.graph.nodes ++ [(st.nodeCount, d)] := by
  simp only [Graph3DLayout.handleOf] at hl
  simp [Graph3DLayout.addOrGetNode, hl, VaultGraph.addNode,
    aset_of_alookup_none _ h.count_fresh, Graph3DLayout.nodeCount]

/-- `addOrGetNode` never changes an existing label → handle assignment
(no invariant needed: a present label is re-`set` to its own handle). -/
theorem addOrGetNode_handleOf_mono (st : Graph3DLayout) (d : GraphNode)
    {l : String} {i : Nat} (hl : st.handleOf l = some i) :
    (st.addOrGetNode d).2.handleOf l = some i := by
  by_cases he : l = d.label
  · subst he
    simp only [Graph3DLayout.handleOf] at hl ⊢
    simp [Graph3DLayout.addOrGetNode, hl, alookup_aset_self]
  · simp only [Graph3DLayout.handleOf] at hl ⊢
    simp [Graph3DLayout.addOrGetNode, alookup_aset_of_ne _ _ he, hl]

/-- After `addOrGetNode`, the written label maps to the returned handle. -/
theorem addOrGetNode_handleOf_self (st : Graph3DLayout) (d : GraphNode) :
    (st.addOrGetNode d).2.handleOf d.label = some (st.addOrGetNode d).1 := by
  simp [Graph3DLayout.addOrGetNode, Graph3DLayout.handleOf, alookup_aset_self]

/-- After `addOrGetNode`, the returned handle stores exactly the written
payload. -/
theorem addOrGetNode_getNode_self (st : Graph3DLayout) (d : GraphNode) :
    (st.addOrGetNode d).2.graph.getNode (st.addOrGetNode d).1 = some d := by
  simp [Graph3DLayout.addOrGetNode, VaultGraph.getNode, VaultGraph.addNode,
    alookup_aset_self]

/-- `addOrGetNode` preserves the invariant and is append-only on the label
and id tables. -/
theorem addOrGetNode_inv {st : Graph3DLayout} (h : Inv st) (d : GraphNode) :
    Inv (st.addOrGetNode d).2 ∧ StepOk st (st.addOrGetNode d).2 := by
  rcases hcase : st.handleOf d.label with _ | i
  · -- fresh label: everything is appended
    have hn := addOrGetNode_nameToId_absent hcase
    have hg := addOrGetNode_nodes_absent h hcase
    have hfreshName : d.label ∉ keysOf st.nameToId := by
      rw [← alookup_eq_none_iff]
      exact hcase
    have hfreshId : st.nodeCount ∉ keysOf st.graph.nodes := by
      rw [← alookup_eq_none_iff]
      exact h.count_fresh
    constructor
    · constructor
      · intro p hp
        rw [hg] at hp
        rw [hn]
        rcases List.mem_append.mp hp with hp | hp
        · exact alookup_append_of_some _ (h.lookup_label p hp)
        · simp at hp
          subst hp
          rw [alookup_append_of_none _ (by simpa [Graph3DLayout.handleOf] using hcase)]
          simp [alookup]
      · intro p hp
        rw [hn] at hp
        rw [hg]
        rcases List.mem_append.mp hp with hp | hp
        · obtain ⟨q, hq, hq1, hq2⟩ := h.handle_node p hp
          exact ⟨q, List.mem_append_left _ hq, hq1, hq2⟩
        · simp at hp
          subst hp
          exact ⟨(st.nodeCount, d), List.mem_append_right _ (by simp), by simp⟩
      · rw [hg]
        have hk : keysOf (st.graph.nodes ++ [(st.nodeCount, d)])
            = keysOf st.graph.nodes ++ [st.nodeCount] := by simp [keysOf]
        rw [hk, List.nodup_append]
        refine ⟨h.ids_nodup, List.nodup_singleton _, ?_⟩
        intro a ha hb
        simp at hb
        subst hb
        exact hfreshId ha
      · intro p hp
        rw [hg] at hp ⊢
        simp only [List.length_append, List.length_cons, List.length_nil]
        rcases List.mem_append.mp hp with hp | hp
        · have := h.ids_lt p hp
          omega
        · simp at hp
          subst hp
          simp [Graph3DLayout.nodeCount, VaultGraph.getNodeCount]
      · rw [hn]
        have hk : keysOf (st.nameToId ++ [(d.label, st.nodeCount)])
            = keysOf st.nameToId ++ [d.label] := by simp [keysOf]
        rw [hk, List.nodup_append]
        refine ⟨h.names_nodup, List.nodup_singleton _, ?_⟩
        intro a ha hb
        simp at hb
        subst hb
        exact hfreshName ha
    · refine ⟨⟨[(d.label, st.nodeCount)], hn⟩,
        ⟨[(st.nodeCount, d.label)], ?_⟩⟩
      simp [idLabels, hg]
  · -- existing label: data overwritten in place, tables unchanged
    obtain ⟨dd, hdd, hddl⟩ := h.node_of_handle hcase
    have hn := addOrGetNode_nameToId_present hcase
    have hg := addOrGetNode_nodes_present hcase
    have hddl' : alookup st.graph.nodes i = some dd := hdd
    constructor
    · constructor
      · intro p hp
        rw [hg] at hp
        rw [hn]
        rcases mem_aset hp with hp | hp
        · exact h.lookup_label p hp
        · subst hp
          exact hcase
      · intro p hp
        rw [hn] at hp
        rw [hg]
        obtain ⟨q, hq, hq1, hq2⟩ := h.handle_node p hp
        by_cases hqi : q.1 = i
        · have hqmem : (i, q.2) ∈ st.graph.nodes := by
            rw [← hqi]
            simpa using hq
          have hq2' : alookup st.graph.nodes i = some q.2 :=
            alookup_of_mem_of_nodup hqmem h.ids_nodup
          have hqd : q.2 = dd := by
            rw [hq2'] at hddl'
            injection hddl'
          refine ⟨(i, d), mem_of_alookup_eq_some (alookup_aset_self _ _ _),
            by simp [← hq1, hqi], ?_⟩
          have hp1 : p.1 = dd.label := by rw [← hq2, hqd]
          simpa [hp1] using hddl.symm
        · exact ⟨q, mem_aset_of_mem hq hqi, hq1, hq2⟩
      · rw [hg, keysOf_aset_of_some _ hddl']
        exact h.ids_nodup
      · intro p hp
        rw [hg] at hp ⊢
        rw [length_aset_of_some _ hddl']
        rcases mem_aset hp with hp | hp
        · exact h.ids_lt p hp
        · subst hp
          have := h.ids_lt _ (mem_of_alookup_eq_some hddl')
          simpa using this
      · rw [hn]
        exact h.names_nodup
    · refine ⟨⟨[], by simp [hn]⟩, ⟨[], ?_⟩⟩
      simp only [idLabels, hg, List.append_nil]
      exact map_aset_of_some GraphNode.label hddl' hddl.symm

/-! ## `link` characterization -/

theorem link_nameToId (st : Graph3DLayout) (s t : Nat) :
    (st.link s t).nameToId = st.nameToId := by
  unfold Graph3DLayout.link
  split <;> rfl

theorem link_nodes (st : Graph3DLayout) (s t : Nat) :
    (st.link s t).graph.nodes = st.graph.nodes := by
  unfold Graph3DLayout.link
  split <;> rfl

theorem link_of_hasLink {st : Graph3DLayout} {s t : Nat}
    (h : st.graph.hasLink s t = true) : st.link s t = st := by
  simp [Graph3DLayout.link, h]

theorem link_of_not_hasLink {st : Graph3DLayout} {s t : Nat}
    (h : ¬ st.graph.hasLink s t = true) :
    (st.link s t).graph.links
      = st.graph.links ++ [⟨s, t, 2 * st.graph.getLinkCount⟩] := by
  simp [Graph3DLayout.link, h, VaultGraph.addLink]

/-- Whatever `link` appends is a single link with the requested endpoints. -/
theorem link_links_extend (st : Graph3DLayout) (s t : Nat) :
    ∃ e, (st.link s t).graph.links = st.graph.links ++ e ∧
      ∀ l ∈ e, l.fromId = s ∧ l.toId = t := by
  by_cases h : st.graph.hasLink s t = true
  · exact ⟨[], by simp [link_of_hasLink h]⟩
  · exact ⟨[⟨s, t, 2 * st.graph.getLinkCount⟩],
      by simp [link_of_not_hasLink h]⟩

theorem link_inv {st : Graph3DLayout} (h : Inv st) (s t : Nat) :
    Inv (st.link s t) :=
  Inv_congr (link_nameToId st s t) (link_nodes st s t) h

/-! ## Growth relations for the addition phase -/

/-- The link list only grows (no removals) between two states. -/
def LinksExtend (st st' : Graph3DLayout) : Prop :=
  ∃ e, st'.graph.links = st.graph.links ++ e

theorem linksExtend_refl (st : Graph3DLayout) : LinksExtend st st :=
  ⟨[], by simp⟩

theorem linksExtend_trans {s1 s2 s3 : Graph3DLayout} (h1 : LinksExtend s1 s2)
    (h2 : LinksExtend s2 s3) : LinksExtend s1 s3 := by
  obtain ⟨e1, he1⟩ := h1
  obtain ⟨e2, he2⟩ := h2
  exact ⟨e1 ++ e2, by simp [he2, he1]⟩

theorem hasLink_of_extend {st st' : Graph3DLayout} (h : LinksExtend st st')
    {s t : Nat} (hl : st.graph.hasLink s t = true) :
    st'.graph.hasLink s t = true := by
  obtain ⟨e, he⟩ := h
  simp only [VaultGraph.hasLink] at hl ⊢
  rw [he, List.any_append, hl]
  simp

/-- Combined growth: tables append-only and links append-only. -/
def Grows (st st' : Graph3DLayout) : Prop :=
  StepOk st st' ∧ LinksExtend st st'

theorem grows_refl (st : Graph3DLayout) : Grows st st :=
  ⟨stepOk_refl st, linksExtend_refl st⟩

theorem grows_trans {s1 s2 s3 : Graph3DLayout} (h1 : Grows s1 s2)
    (h2 : Grows s2 s3) : Grows s1 s3 :=
  ⟨stepOk_trans h1.1 h2.1, linksExtend_trans h1.2 h2.2⟩

theorem addOrGetNode_grows {st : Graph3DLayout} (h : Inv st) (d : GraphNode) :
    Inv (st.addOrGetNode d).2 ∧ Grows st (st.addOrGetNode d).2 := by
  obtain ⟨h1, h2⟩ := addOrGetNode_inv h d
  exact ⟨h1, h2, ⟨[], by simp [addOrGetNode_links]⟩⟩

theorem link_grows {st : Graph3DLayout} (h : Inv st) (s t : Nat) :
    Inv (st.link s t) ∧ Grows st (st.link s t) := by
  refine ⟨link_inv h s t,
    StepOk.of_eq (link_nameToId st s t) (link_nodes st s t), ?_⟩
  obtain ⟨e, he, _⟩ := link_links_extend st s t
  exact ⟨e, he⟩

/-- Generic fold closure for invariant preservation plus growth. -/
theorem foldl_grows {γ : Type} {f : Graph3DLayout → γ → Graph3DLayout}
    (hf : ∀ st x, Inv st → Inv (f st x) ∧ Grows st (f st x)) :
    ∀ (xs : List γ) (st : Graph3DLayout), Inv st →
      Inv (xs.foldl f st) ∧ Grows st (xs.foldl f st) := by
  intro xs
  induction xs with
  | nil => exact fun st h => ⟨h, grows_refl st⟩
  | cons x rest ih =>
      intro st h
      obtain ⟨h1, h2⟩ := hf st x h
      obtain ⟨h3, h4⟩ := ih (f st x) h1
      exact ⟨h3, grows_trans h2 h4⟩

theorem addTargets_step {st : Graph3DLayout} (h : Inv st) (srcId : Nat)
    (r : Bool) (p : String × Nat) :
    Inv ((st.addOrGetNode ⟨p.1, r⟩).2.link srcId (st.addOrGetNode ⟨p.1, r⟩).1)
      ∧ Grows st ((st.addOrGetNode ⟨p.1, r⟩).2.link srcId (st.addOrGetNode ⟨p.1, r⟩).1) := by
  obtain ⟨h1, h2⟩ := addOrGetNode_grows h ⟨p.1, r⟩
  obtain ⟨h3, h4⟩ := link_grows h1 srcId (st.addOrGetNode ⟨p.1, r⟩).1
  exact ⟨h3, grows_trans h2 h4⟩

theorem addTargets_grows {st : Graph3DLayout} (h : Inv st) (srcId : Nat)
    (r : Bool) (ts : TargetMap) :
    Inv (st.addTargets srcId r ts) ∧ Grows st (st.addTargets srcId r ts) := by
  unfold Graph3DLayout.addTargets
  exact foldl_grows (fun st x hx => addTargets_step hx srcId r x) ts st h

theorem addLinks_grows {st : Graph3DLayout} (h : Inv st) (lm : LinkMap)
    (r : Bool) :
    Inv (st.addLinks lm r) ∧ Grows st (st.addLinks lm r) := by
  unfold Graph3DLayout.addLinks
  refine foldl_grows (fun st x hx => ?_) lm st h
  obtain ⟨h1, h2⟩ := addOrGetNode_grows hx ⟨x.1, true⟩
  obtain ⟨h3, h4⟩ :=
    addTargets_grows h1 (st.addOrGetNode ⟨x.1, true⟩).1 r x.2
  exact ⟨h3, grows_trans h2 h4⟩

theorem fromMetadataCache_grows {st : Graph3DLayout} (h : Inv st)
    (m : MetadataCache) :
    Inv (st.fromMetadataCache m) ∧ Grows st (st.fromMetadataCache m) := by
  unfold Graph3DLayout.fromMetadataCache
  obtain ⟨h1, h2⟩ := addLinks_grows h m.resolvedLinks true
  obtain ⟨h3, h4⟩ := addLinks_grows h1 m.unresolvedLinks false
  exact ⟨h3, grows_trans h2 h4⟩

/-! ## Presence of snapshot labels and links after the addition phase -/

/-- Both labels of a snapshot pair have handles and a link connects them. -/
def pairPresent (st : Graph3DLayout) (sL tL : String) : Prop :=
  ∃ si ti, st.handleOf sL = some si ∧ st.handleOf tL = some ti ∧
    st.graph.hasLink si ti = true

theorem pairPresent_mono {st st' : Graph3DLayout} (h : Grows st st')
    {sL tL : String} (hp : pairPresent st sL tL) : pairPresent st' sL tL := by
  obtain ⟨si, ti, h1, h2, h3⟩ := hp
  exact ⟨si, ti, h.1.handleOf_mono h1, h.1.handleOf_mono h2,
    hasLink_of_extend h.2 h3⟩

theorem handleOf_isSome_mono {st st' : Graph3DLayout} (h : StepOk st st')
    {l : String} (hl : (st.handleOf l).isSome) : (st'.handleOf l).isSome := by
  obtain ⟨i, hi⟩ := Option.isSome_iff_exists.mp hl
  rw [h.handleOf_mono hi]
  rfl

/-- After `addTargets`, every target key of the processed map has a handle and
an outgoing link from the source id. -/
theorem addTargets_presence {st : Graph3DLayout} (h : Inv st) (srcId : Nat)
    (r : Bool) (ts : TargetMap) :
    ∀ p ∈ ts, ∃ ti, (st.addTargets srcId r ts).handleOf p.1 = some ti ∧
      (st.addTargets srcId r ts).graph.hasLink srcId ti = true := by
  induction ts generalizing st with
  | nil => intro p hp; simp at hp
  | cons q rest ih =>
      intro p hp
      have hstep : Graph3DLayout.addTargets st srcId r (q :: rest)
          = Graph3DLayout.addTargets
              ((st.addOrGetNode ⟨q.1, r⟩).2.link srcId (st.addOrGetNode ⟨q.1, r⟩).1)
              srcId r rest := by
        simp [Graph3DLayout.addTargets]
      obtain ⟨hI, hG⟩ := addTargets_step h srcId r q
      rcases List.mem_cons.mp hp with hp | hp
      · subst hp
        -- the handle and link for the head are installed by this very step
        set st1 := (st.addOrGetNode ⟨p.1, r⟩).2 with hst1
        set ti := (st.addOrGetNode ⟨p.1, r⟩).1 with hti
        have hh : st1.handleOf p.1 = some ti := addOrGetNode_handleOf_self st ⟨p.1, r⟩
        have hh2 : (st1.link srcId ti).handleOf p.1 = some ti := by
          rw [Graph3DLayout.handleOf, link_nameToId]
          exact hh
        have hlk : (st1.link srcId ti).graph.hasLink srcId ti = true := by
          by_cases hc : st1.graph.hasLink srcId ti = true
          · rw [link_of_hasLink hc]; exact hc
          · simp only [VaultGraph.hasLink]
            rw [link_of_not_hasLink hc, List.any_append]
            simp
        obtain ⟨hI2, hG2⟩ := addTargets_grows hI srcId r rest
        rw [hstep]
        exact ⟨ti, hG2.1.handleOf_mono hh2, hasLink_of_extend hG2.2 hlk⟩
      · rw [hstep]
        exact ih hI p hp

/-- After `addLinks`, every source key has a handle and every listed pair is
present. -/
theorem addLinks_presence {st : Graph3DLayout} (h : Inv st) (lm : LinkMap)
    (r : Bool) :
    ∀ entry ∈ lm, ((st.addLinks lm r).handleOf entry.1).isSome
      ∧ ∀ p ∈ entry.2, pairPresent (st.addLinks lm r) entry.1 p.1 := by
  induction lm generalizing st with
  | nil => intro e he; simp at he
  | cons q rest ih =>
      intro e he
      have hstep : Graph3DLayout.addLinks st (q :: rest) r
          = Graph3DLayout.addLinks
              ((st.addOrGetNode ⟨q.1, true⟩).2.addTargets (st.addOrGetNode ⟨q.1, true⟩).1 r q.2)
              rest r := by
        simp [Graph3DLayout.addLinks]
      obtain ⟨hI1, hG1⟩ := addOrGetNode_grows h ⟨q.1, true⟩
      set si := (st.addOrGetNode ⟨q.1, true⟩).1 with hsi
      set st1 := (st.addOrGetNode ⟨q.1, true⟩).2 with hst1
      obtain ⟨hI2, hG2⟩ := addTargets_grows hI1 si r q.2
      set st2 := st1.addTargets si r q.2 with hst2
      obtain ⟨hI3, hG3⟩ := addLinks_grows hI2 rest r
      rcases List.mem_cons.mp he with he | he
      · subst he
        have hh : st1.handleOf e.1 = some si := addOrGetNode_handleOf_self st ⟨e.1, true⟩
        have hh2 : st2.handleOf e.1 = some si := hG2.1.handleOf_mono hh
        constructor
        · rw [hstep]
          rw [hG3.1.handleOf_mono hh2]
          rfl
        · intro p hp
          obtain ⟨ti, hti, hlk⟩ := addTargets_presence hI1 si r e.2 p hp
          have hpair : pairPresent st2 e.1 p.1 := ⟨si, ti, hh2, hti, hlk⟩
          rw [hstep]
          exact pairPresent_mono hG3 hpair
      · rw [hstep]
        exact ih hI2 e he

theorem fromMetadataCache_presence {st : Graph3DLayout} (h : Inv st)
    (m : MetadataCache) :
    ∀ entry ∈ m.resolvedLinks ++ m.unresolvedLinks,
      ((st.fromMetadataCache m).handleOf entry.1).isSome ∧
      ∀ p ∈ entry.2, pairPresent (st.fromMetadataCache m) entry.1 p.1 := by
  intro entry he
  obtain ⟨h1, hG1⟩ := addLinks_grows h m.resolvedLinks true
  rcases List.mem_append.mp he with he | he
  · obtain ⟨ha, hb⟩ := addLinks_presence h m.resolvedLinks true entry he
    obtain ⟨h2, hG2⟩ := addLinks_grows h1 m.unresolvedLinks false
    refine ⟨handleOf_isSome_mono hG2.1 ha, fun p hp => ?_⟩
    exact pairPresent_mono hG2 (hb p hp)
  · exact addLinks_presence h1 m.unresolvedLinks false entry he

/-! ## Label presence and tables constancy -/

/-- Every source and target label of the snapshot already has a handle. -/
def AllLabels (m : MetadataCache) (st : Graph3DLayout) : Prop :=
  ∀ entry ∈ m.resolvedLinks ++ m.unresolvedLinks,
    (st.handleOf entry.1).isSome ∧ ∀ p ∈ entry.2, (st.handleOf p.1).isSome

theorem allLabels_mono {m : MetadataCache} {st st' : Graph3DLayout}
    (h : StepOk st st') (ha : AllLabels m st) : AllLabels m st' := by
  intro entry he
  obtain ⟨h1, h2⟩ := ha entry he
  exact ⟨handleOf_isSome_mono h h1, fun p hp => handleOf_isSome_mono h (h2 p hp)⟩

theorem fromMetadataCache_allLabels {st : Graph3DLayout} (h : Inv st)
    (m : MetadataCache) : AllLabels m (st.fromMetadataCache m) := by
  intro entry he
  obtain ⟨h1, h2⟩ := fromMetadataCache_presence h m entry he
  refine ⟨h1, fun p hp => ?_⟩
  obtain ⟨si, ti, _, hti, _⟩ := h2 p hp
  rw [hti]
  rfl

/-- When the written label is already present, `addOrGetNode` changes no
table entry (only the stored node payload). -/
theorem addOrGetNode_tables_present {st : Graph3DLayout} (h : Inv st)
    {d : GraphNode} {i : Nat} (hl : st.handleOf d.label = some i) :
    (st.addOrGetNode d).2.nameToId = st.nameToId ∧
    idLabels (st.addOrGetNode d).2 = idLabels st := by
  refine ⟨addOrGetNode_nameToId_present hl, ?_⟩
  obtain ⟨dd, hdd, hddl⟩ := h.node_of_handle hl
  simp only [idLabels, addOrGetNode_nodes_present hl]
  exact map_aset_of_some GraphNode.label hdd hddl.symm

theorem addTargets_tables {st : Graph3DLayout} (h : Inv st) (srcId : Nat)
    (r : Bool) {ts : TargetMap}
    (hp : ∀ p ∈ ts, (st.handleOf p.1).isSome) :
    (st.addTargets srcId r ts).nameToId = st.nameToId ∧
    idLabels (st.addTargets srcId r ts) = idLabels st := by
  induction ts generalizing st with
  | nil => exact ⟨rfl, rfl⟩
  | cons q rest ih =>
      have hstep : Graph3DLayout.addTargets st srcId r (q :: rest)
          = Graph3DLayout.addTargets
              ((st.addOrGetNode ⟨q.1, r⟩).2.link srcId (st.addOrGetNode ⟨q.1, r⟩).1)
              srcId r rest := by
        simp [Graph3DLayout.addTargets]
      obtain ⟨i, hi⟩ := Option.isSome_iff_exists.mp (hp q (by simp))
      obtain ⟨h1t, h2t⟩ := addOrGetNode_tables_present h (d := ⟨q.1, r⟩) hi
      obtain ⟨hI1, _⟩ := addOrGetNode_grows h ⟨q.1, r⟩
      set st1 := (st.addOrGetNode ⟨q.1, r⟩).2
      set ti := (st.addOrGetNode ⟨q.1, r⟩).1
      have hI2 : Inv (st1.link srcId ti) := link_inv hI1 srcId ti
      have h1l : (st1.link srcId ti).nameToId = st.nameToId := by
        rw [link_nameToId]; exact h1t
      have h2l : idLabels (st1.link srcId ti) = idLabels st := by
        simp only [idLabels, link_nodes]
        exact h2t
      have hp2 : ∀ p ∈ rest, (((st1.link srcId ti)).handleOf p.1).isSome := by
        intro p hpm
        unfold Graph3DLayout.handleOf
        rw [h1l]
        exact hp p (by simp [hpm])
      obtain ⟨ih1, ih2⟩ := ih hI2 hp2
      rw [hstep]
      exact ⟨by rw [ih1, h1l], by rw [ih2, h2l]⟩

theorem addLinks_tables {st : Graph3DLayout} (h : Inv st) {lm : LinkMap}
    {r : Bool}
    (hp : ∀ e ∈ lm, (st.handleOf e.1).isSome ∧ ∀ p ∈ e.2, (st.handleOf p.1).isSome) :
    (st.addLinks lm r).nameToId = st.nameToId ∧
    idLabels (st.addLinks lm r) = idLabels st := by
  induction lm generalizing st with
  | nil => exact ⟨rfl, rfl⟩
  | cons q rest ih =>
      have hstep : Graph3DLayout.addLinks st (q :: rest) r
          = Graph3DLayout.addLinks
              ((st.addOrGetNode ⟨q.1, true⟩).2.addTargets (st.addOrGetNode ⟨q.1, true⟩).1 r q.2)
              rest r := by
        simp [Graph3DLayout.addLinks]
      obtain ⟨i, hi⟩ := Option.isSome_iff_exists.mp ((hp q (by simp)).1)
      obtain ⟨h1t, h2t⟩ := addOrGetNode_tables_present h (d := ⟨q.1, true⟩) hi
      obtain ⟨hI1, _⟩ := addOrGetNode_grows h ⟨q.1, true⟩
      set st1 := (st.addOrGetNode ⟨q.1, true⟩).2
      set si := (st.addOrGetNode ⟨q.1, true⟩).1
      have hp1 : ∀ p ∈ q.2, (st1.handleOf p.1).isSome := by
        intro p hpm
        unfold Graph3DLayout.handleOf
        rw [h1t]
        exact (hp q (by simp)).2 p hpm
      obtain ⟨h1a, h2a⟩ := addTargets_tables hI1 si r hp1
      obtain ⟨hI2, _⟩ := addTargets_grows hI1 si r q.2
      set st2 := st1.addTargets si r q.2
      have h1c : st2.nameToId = st.nameToId := by rw [h1a, h1t]
      have h2c : idLabels st2 = idLabels st := by rw [h2a, h2t]
      have hp2 : ∀ e ∈ rest, (st2.handleOf e.1).isSome ∧
          ∀ p ∈ e.2, (st2.handleOf p.1).isSome := by
        intro e hem
        unfold Graph3DLayout.handleOf
        rw [h1c]
        exact hp e (by simp [hem])
      obtain ⟨ih1, ih2⟩ := ih hI2 hp2
      rw [hstep]
      exact ⟨by rw [ih1, h1c], by rw [ih2, h2c]⟩

theorem fromMetadataCache_tables {st : Graph3DLayout} (h : Inv st)
    {m : MetadataCache} (hp : AllLabels m st) :
    (st.fromMetadataCache m).nameToId = st.nameToId ∧
    idLabels (st.fromMetadataCache m) = idLabels st := by
  have hpr : ∀ e ∈ m.resolvedLinks, (st.handleOf e.1).isSome ∧
      ∀ p ∈ e.2, (st.handleOf p.1).isSome :=
    fun e he => hp e (List.mem_append_left _ he)
  obtain ⟨h1, h2⟩ := addLinks_tables h (r := true) hpr
  obtain ⟨hI1, _⟩ := addLinks_grows h m.resolvedLinks true
  set st1 := st.addLinks m.resolvedLinks true
  have hpu : ∀ e ∈ m.unresolvedLinks, (st1.handleOf e.1).isSome ∧
      ∀ p ∈ e.2, (st1.handleOf p.1).isSome := by
    intro e he
    unfold Graph3DLayout.handleOf
    rw [h1]
    exact hp e (List.mem_append_right _ he)
  obtain ⟨h3, h4⟩ := addLinks_tables hI1 (r := false) hpu
  constructor
  · show (st1.addLinks m.unresolvedLinks false).nameToId = st.nameToId
    rw [h3, h1]
  · show idLabels (st1.addLinks m.unresolvedLinks false) = idLabels st
    rw [h4, h2]

/-! ## Staleness, evaluated on labels -/

/-- The removal test, as a function of the source and target labels only. -/
def staleL (m : MetadataCache) (srcL tL : String) : Bool :=
  if tL = "" then false
  else !(truthy (mergedLookup ((alookup m.resolvedLinks srcL).getD [])
      ((alookup m.unresolvedLinks srcL).getD []) tL))

/-- `staleL` lifted to a possibly-missing target label (a missing target node
never triggers removal). -/
def staleEval (m : MetadataCache) (srcL : String) : Option String → Bool
  | none => false
  | some tL => staleL m srcL tL

/-- `staleTarget`, computed with the maps of the source label `srcL`, depends
only on the label stored for the link's target. -/
theorem staleTarget_eq_staleEval (g : VaultGraph) (m : MetadataCache)
    (srcL : String) (l : GLink) :
    staleTarget g ((alookup m.resolvedLinks srcL).getD [])
        ((alookup m.unresolvedLinks srcL).getD []) l
      = staleEval m srcL ((g.getNode l.toId).map GraphNode.label) := by
  unfold staleTarget staleEval
  rcases g.getNode l.toId with _ | d
  · rfl
  · simp [staleL]

/-- A link is clean for its source when the stored labels say it must not be
removed. -/
def CleanAt (m : MetadataCache) (st : Graph3DLayout) (j : Nat) : Prop :=
  ∀ l ∈ st.graph.links, l.fromId = j →
    ∀ L, st.labelOfId j = some L → staleEval m L (st.labelOfId l.toId) = false

/-! ## `syncNode` characterization -/

theorem hasLink_iff {g : VaultGraph} {s t : Nat} :
    g.hasLink s t = true ↔ ∃ l ∈ g.links, l.fromId = s ∧ l.toId = t := by
  simp [VaultGraph.hasLink, List.any_eq_true]

theorem labelOfId_congr {st st' : Graph3DLayout}
    (h : idLabels st' = idLabels st) (i : Nat) :
    st'.labelOfId i = st.labelOfId i := by
  rw [labelOfId_eq_alookup, labelOfId_eq_alookup, h]

theorem labelOfId_of_getNode {st : Graph3DLayout} {i : Nat} {d : GraphNode}
    (h : st.graph.getNode i = some d) : st.labelOfId i = some d.label := by
  simp [Graph3DLayout.labelOfId, h]

theorem handleOf_congr {st st' : Graph3DLayout}
    (h : st'.nameToId = st.nameToId) (l : String) :
    st'.handleOf l = st.handleOf l := by
  simp [Graph3DLayout.handleOf, h]

theorem syncNode_of_getNode_none {m : MetadataCache} {T : Graph3DLayout}
    {k : Nat} (hk : T.graph.getNode k = none) :
    Graph3DLayout.syncNode m T k = T := by
  simp [Graph3DLayout.syncNode, hk]

theorem syncNode_of_getNode_some {m : MetadataCache} {T : Graph3DLayout}
    {k : Nat} {d : GraphNode} (hk : T.graph.getNode k = some d) :
    Graph3DLayout.syncNode m T k
      = ((T.addTargets k true ((alookup m.resolvedLinks d.label).getD [])).addTargets
            k false ((alookup m.unresolvedLinks d.label).getD [])).pruneSource
          k ((alookup m.resolvedLinks d.label).getD [])
          ((alookup m.unresolvedLinks d.label).getD []) := by
  simp [Graph3DLayout.syncNode, hk]

/-- Everything `addTargets` appends to the link list starts at the source. -/
theorem addTargets_links_from (st : Graph3DLayout) (srcId : Nat) (r : Bool)
    (ts : TargetMap) :
    ∃ e, (st.addTargets srcId r ts).graph.links = st.graph.links ++ e ∧
      ∀ a ∈ e, a.fromId = srcId := by
  induction ts generalizing st with
  | nil => exact ⟨[], by simp [Graph3DLayout.addTargets]⟩
  | cons q rest ih =>
      have hstep : Graph3DLayout.addTargets st srcId r (q :: rest)
          = Graph3DLayout.addTargets
              ((st.addOrGetNode ⟨q.1, r⟩).2.link srcId (st.addOrGetNode ⟨q.1, r⟩).1)
              srcId r rest := by
        simp [Graph3DLayout.addTargets]
      set st1 := (st.addOrGetNode ⟨q.1, r⟩).2
      set ti := (st.addOrGetNode ⟨q.1, r⟩).1
      obtain ⟨e0, he0, he0f⟩ := link_links_extend st1 srcId ti
      obtain ⟨e1, he1, he1f⟩ := ih (st1.link srcId ti)
      refine ⟨e0 ++ e1, ?_, ?_⟩
      · rw [hstep, he1, he0]
        have : st1.graph.links = st.graph.links := addOrGetNode_links st ⟨q.1, r⟩
        rw [this, List.append_assoc]
      · intro a ha
        rcases List.mem_append.mp ha with ha | ha
        · exact (he0f a ha).1
        · exact he1f a ha

/-- The per-source target labels all have handles when every snapshot label
does. -/
theorem targets_isSome_of_allLabels {m : MetadataCache} {T : Graph3DLayout}
    (hc : AllLabels m T) (L : String) :
    (∀ p ∈ (alookup m.resolvedLinks L).getD [], (T.handleOf p.1).isSome) ∧
    (∀ p ∈ (alookup m.unresolvedLinks L).getD [], (T.handleOf p.1).isSome) := by
  constructor
  · intro p hp
    rcases hrl : alookup m.resolvedLinks L with _ | ts
    · rw [hrl] at hp; simp at hp
    · rw [hrl] at hp
      simp at hp
      exact (hc (L, ts) (List.mem_append_left _ (mem_of_alookup_eq_some hrl))).2 p hp
  · intro p hp
    rcases hrl : alookup m.unresolvedLinks L with _ | ts
    · rw [hrl] at hp; simp at hp
    · rw [hrl] at hp
      simp at hp
      exact (hc (L, ts) (List.mem_append_right _ (mem_of_alookup_eq_some hrl))).2 p hp

/-- When every snapshot label is already present, the `syncWithCache` loop body
changes no table entry and preserves the invariant. -/
theorem syncNode_tables {m : MetadataCache} {T : Graph3DLayout} (h : Inv T)
    (hc : AllLabels m T) (k : Nat) :
    (Graph3DLayout.syncNode m T k).nameToId = T.nameToId ∧
    idLabels (Graph3DLayout.syncNode m T k) = idLabels T ∧
    Inv (Graph3DLayout.syncNode m T k) := by
  rcases hk : T.graph.getNode k with _ | d
  · rw [syncNode_of_getNode_none hk]
    exact ⟨rfl, rfl, h⟩
  · rw [syncNode_of_getNode_some hk]
    obtain ⟨hrt, hut⟩ := targets_isSome_of_allLabels hc d.label
    set rT := (alookup m.resolvedLinks d.label).getD [] with hrT
    set uT := (alookup m.unresolvedLinks d.label).getD [] with huT
    obtain ⟨h1, h2⟩ := addTargets_tables h k true hrt
    obtain ⟨hI1, _⟩ := addTargets_grows h k true rT
    set T1 := T.addTargets k true rT
    have hut1 : ∀ p ∈ uT, (T1.handleOf p.1).isSome := by
      intro p hp
      rw [handleOf_congr h1]
      exact hut p hp
    obtain ⟨h3, h4⟩ := addTargets_tables hI1 k false hut1
    obtain ⟨hI2, _⟩ := addTargets_grows hI1 k false uT
    set T2 := T1.addTargets k false uT
    have hp1 : (T2.pruneSource k rT uT).nameToId = T2.nameToId := rfl
    have hp2 : (T2.pruneSource k rT uT).graph.nodes = T2.graph.nodes := rfl
    refine ⟨?_, ?_, Inv_congr hp1 hp2 hI2⟩
    · rw [hp1, h3, h1]
    · have hp3 : idLabels (T2.pruneSource k rT uT) = idLabels T2 := rfl
      rw [hp3, h4, h2]

/-- The loop body acts on the link list as: append links out of `k`, then
filter out the stale links out of `k`, with staleness read off the (stable)
node labels. -/
theorem syncNode_shape {m : MetadataCache} {T : Graph3DLayout} {k : Nat}
    {d : GraphNode} (h : Inv T) (hc : AllLabels m T)
    (hk : T.graph.getNode k = some d) :
    ∃ e, (∀ a ∈ e, a.fromId = k) ∧
      (Graph3DLayout.syncNode m T k).graph.links
        = (T.graph.links ++ e).filter
            (fun l => !(l.fromId == k && staleEval m d.label (T.labelOfId l.toId))) := by
  rw [syncNode_of_getNode_some hk]
  obtain ⟨hrt, hut⟩ := targets_isSome_of_allLabels hc d.label
  set rT := (alookup m.resolvedLinks d.label).getD [] with hrT
  set uT := (alookup m.unresolvedLinks d.label).getD [] with huT
  obtain ⟨h1, h2⟩ := addTargets_tables h k true hrt
  obtain ⟨hI1, _⟩ := addTargets_grows h k true rT
  set T1 := T.addTargets k true rT
  have hut1 : ∀ p ∈ uT, (T1.handleOf p.1).isSome := by
    intro p hp
    rw [handleOf_congr h1]
    exact hut p hp
  obtain ⟨h3, h4⟩ := addTargets_tables hI1 k false hut1
  set T2 := T1.addTargets k false uT
  obtain ⟨e1, he1, he1f⟩ := addTargets_links_from T k true rT
  obtain ⟨e2, he2, he2f⟩ := addTargets_links_from T1 k false uT
  refine ⟨e1 ++ e2, ?_, ?_⟩
  · intro a ha
    rcases List.mem_append.mp ha with ha | ha
    · exact he1f a ha
    · exact he2f a ha
  · show (T2.pruneSource k rT uT).graph.links = _
    have hlinks : T2.graph.links = T.graph.links ++ (e1 ++ e2) := by
      rw [he2, he1, List.append_assoc]
    have hlab : ∀ i, T2.labelOfId i = T.labelOfId i := by
      intro i
      calc T2.labelOfId i = T1.labelOfId i := labelOfId_congr h4 i
        _ = T.labelOfId i := labelOfId_congr h2 i
    have hred : (T2.pruneSource k rT uT).graph.links
        = T2.graph.links.filter
            (fun l => !(l.fromId == k && staleTarget T2.graph rT uT l)) := rfl
    rw [hred, hlinks]
    apply List.filter_congr
    intro a _
    have hb : staleTarget T2.graph rT uT a
        = staleEval m d.label (T.labelOfId a.toId) := by
      rw [hrT, huT, staleTarget_eq_staleEval T2.graph m d.label a]
      have hmap : (T2.graph.getNode a.toId).map GraphNode.label
          = T2.labelOfId a.toId := rfl
      rw [hmap, hlab]
    rw [hb]

/-- Links whose labels say "keep" survive the loop body. -/
theorem syncNode_keeps {m : MetadataCache} {T : Graph3DLayout} {k : Nat}
    (h : Inv T) (hc : AllLabels m T) {l : GLink} (hl : l ∈ T.graph.links)
    (hkeep : ∀ L, T.labelOfId l.fromId = some L →
      staleEval m L (T.labelOfId l.toId) = false) :
    l ∈ (Graph3DLayout.syncNode m T k).graph.links := by
  rcases hk : T.graph.getNode k with _ | d
  · rw [syncNode_of_getNode_none hk]
    exact hl
  · obtain ⟨e, _, he⟩ := syncNode_shape h hc hk
    rw [he]
    apply List.mem_filter.mpr
    refine ⟨List.mem_append_left _ hl, ?_⟩
    by_cases hfk : l.fromId = k
    · have hlk : T.labelOfId l.fromId = some d.label := by
        rw [hfk]
        exact labelOfId_of_getNode hk
      have := hkeep d.label hlk
      simp [hfk, this]
    · simp [hfk]

/-- After the loop body runs for `k`, every remaining link out of `k` is
clean. -/
theorem syncNode_clean {m : MetadataCache} {T : Graph3DLayout} (h : Inv T)
    (hc : AllLabels m T) (k : Nat) :
    CleanAt m (Graph3DLayout.syncNode m T k) k := by
  intro l hl hf L hL
  rcases hk : T.graph.getNode k with _ | d
  · rw [syncNode_of_getNode_none hk] at hl hL ⊢
    have hnone : T.labelOfId k = none := by
      simp [Graph3DLayout.labelOfId, hk]
    rw [hnone] at hL
    cases hL
  · obtain ⟨_, htab, _⟩ := syncNode_tables h hc k
    obtain ⟨e, _, he⟩ := syncNode_shape h hc hk
    have hlab : ∀ i, (Graph3DLayout.syncNode m T k).labelOfId i = T.labelOfId i :=
      labelOfId_congr htab
    rw [hlab] at hL ⊢
    have hLd : L = d.label := by
      rw [labelOfId_of_getNode hk] at hL
      simpa using hL.symm
    subst hLd
    rw [he] at hl
    have hpred := (List.mem_filter.mp hl).2
    rw [hf] at hpred
    simp at hpred
    exact hpred

/-- Cleanliness at any source survives the loop body. -/
theorem syncNode_cleanAt_preserved {m : MetadataCache} {T : Graph3DLayout}
    (h : Inv T) (hc : AllLabels m T) {j : Nat} (hj : CleanAt m T j) (k : Nat) :
    CleanAt m (Graph3DLayout.syncNode m T k) j := by
  by_cases hjk : j = k
  · subst hjk
    exact syncNode_clean h hc j
  · intro l hl hf L hL
    rcases hk : T.graph.getNode k with _ | d
    · rw [syncNode_of_getNode_none hk] at hl hL ⊢
      exact hj l hl hf L hL
    · obtain ⟨_, htab, _⟩ := syncNode_tables h hc k
      obtain ⟨e, hef, he⟩ := syncNode_shape h hc hk
      have hlab : ∀ i, (Graph3DLayout.syncNode m T k).labelOfId i = T.labelOfId i :=
        labelOfId_congr htab
      rw [hlab] at hL ⊢
      rw [he] at hl
      have hmem := (List.mem_filter.mp hl).1
      rcases List.mem_append.mp hmem with hmem | hmem
      · exact hj l hmem hf L hL
      · exact absurd (hf ▸ hef l hmem) hjk

/-- `AllLabels` survives the loop body (tables are constant there). -/
theorem syncNode_allLabels {m : MetadataCache} {T : Graph3DLayout} (h : Inv T)
    (hc : AllLabels m T) (k : Nat) :
    AllLabels m (Graph3DLayout.syncNode m T k) := by
  obtain ⟨h1, _, _⟩ := syncNode_tables h hc k
  intro entry he
  obtain ⟨ha, hb⟩ := hc entry he
  rw [handleOf_congr h1] at *
  refine ⟨ha, fun p hp => ?_⟩
  rw [handleOf_congr h1]
  exact hb p hp

/-- A present pair whose labels are not stale stays present through the loop
body. -/
theorem syncNode_pair_preserved {m : MetadataCache} {T : Graph3DLayout}
    (h : Inv T) (hc : AllLabels m T) {L t : String}
    (hstale : staleL m L t = false) (hp : pairPresent T L t) (k : Nat) :
    pairPresent (Graph3DLayout.syncNode m T k) L t := by
  obtain ⟨si, ti, h1, h2, h3⟩ := hp
  obtain ⟨htab, _, _⟩ := syncNode_tables h hc k
  obtain ⟨l, hl, hlf, hlt⟩ := hasLink_iff.mp h3
  have hkeep : ∀ L', T.labelOfId l.fromId = some L' →
      staleEval m L' (T.labelOfId l.toId) = false := by
    intro L' hL'
    obtain ⟨dd, hdd, hddl⟩ := h.node_of_handle h1
    obtain ⟨dt, hdt, hdtl⟩ := h.node_of_handle h2
    have hsrc : T.labelOfId l.fromId = some L := by
      rw [hlf, labelOfId_of_getNode hdd, hddl]
    have hLL : L' = L := by
      rw [hsrc] at hL'
      injection hL'.symm
    have htgt : T.labelOfId l.toId = some t := by
      rw [hlt, labelOfId_of_getNode hdt, hdtl]
    rw [hLL, htgt]
    simpa [staleEval] using hstale
  have hmem := syncNode_keeps (k := k) h hc hl hkeep
  exact ⟨si, ti, by rw [handleOf_congr htab]; exact h1,
    by rw [handleOf_congr htab]; exact h2,
    hasLink_iff.mpr ⟨l, hmem, hlf, hlt⟩⟩

/-! ## The `forEachNode` loop of `syncWithCache` -/

theorem syncLoop_tables {m : MetadataCache} :
    ∀ (ids : List Nat) (T : Graph3DLayout), Inv T → AllLabels m T →
      (ids.foldl (Graph3DLayout.syncNode m) T).nameToId = T.nameToId ∧
      idLabels (ids.foldl (Graph3DLayout.syncNode m) T) = idLabels T ∧
      Inv (ids.foldl (Graph3DLayout.syncNode m) T) ∧
      AllLabels m (ids.foldl (Graph3DLayout.syncNode m) T) := by
  intro ids
  induction ids with
  | nil => intro T h hc; exact ⟨rfl, rfl, h, hc⟩
  | cons k rest ih =>
      intro T h hc
      obtain ⟨h1, h2, h3⟩ := syncNode_tables h hc k
      have hc1 := syncNode_allLabels h hc k
      obtain ⟨ih1, ih2, ih3, ih4⟩ := ih _ h3 hc1
      rw [List.foldl_cons]
      exact ⟨by rw [ih1, h1], by rw [ih2, h2], ih3, ih4⟩

theorem syncLoop_clean {m : MetadataCache} :
    ∀ (ids done : List Nat) (T : Graph3DLayout), Inv T → AllLabels m T →
      (∀ j ∈ done, CleanAt m T j) →
      ∀ j ∈ done ++ ids, CleanAt m (ids.foldl (Graph3DLayout.syncNode m) T) j := by
  intro ids
  induction ids with
  | nil =>
      intro done T h hc hd j hj
      simp only [List.foldl_nil]
      exact hd j (by simpa using hj)
  | cons k rest ih =>
      intro done T h hc hd j hj
      obtain ⟨h1, h2, h3⟩ := syncNode_tables h hc k
      have hc1 := syncNode_allLabels h hc k
      have hd1 : ∀ j' ∈ done ++ [k],
          CleanAt m (Graph3DLayout.syncNode m T k) j' := by
        intro j' hj'
        rcases List.mem_append.mp hj' with hj' | hj'
        · exact syncNode_cleanAt_preserved h hc (hd j' hj') k
        · simp at hj'
          subst hj'
          exact syncNode_clean h hc j'
      have hmem : j ∈ (done ++ [k]) ++ rest := by
        simpa using hj
      have := ih (done ++ [k]) (Graph3DLayout.syncNode m T k) h3 hc1 hd1 j hmem
      rw [List.foldl_cons]
      exact this

theorem syncLoop_pairs {m : MetadataCache} :
    ∀ (ids : List Nat) (T : Graph3DLayout), Inv T → AllLabels m T →
      ∀ L t, staleL m L t = false → pairPresent T L t →
        pairPresent (ids.foldl (Graph3DLayout.syncNode m) T) L t := by
  intro ids
  induction ids with
  | nil => intro T _ _ L t _ hp; exact hp
  | cons k rest ih =>
      intro T h hc L t hs hp
      obtain ⟨_, _, h3⟩ := syncNode_tables h hc k
      have hc1 := syncNode_allLabels h hc k
      rw [List.foldl_cons]
      exact ih _ h3 hc1 L t hs (syncNode_pair_preserved h hc hs hp k)

theorem keysOf_idLabels (st : Graph3DLayout) :
    keysOf (idLabels st) = keysOf st.graph.nodes := by
  simp [keysOf, idLabels, List.map_map]

theorem mem_keys_of_labelOfId {st : Graph3DLayout} {i : Nat} {L : String}
    (h : st.labelOfId i = some L) : i ∈ keysOf st.graph.nodes := by
  rw [labelOfId_eq_alookup] at h
  have hm := mem_of_alookup_eq_some h
  rw [← keysOf_idLabels]
  simp only [keysOf, List.mem_map]
  exact ⟨(i, L), hm, rfl⟩

/-- Global cleanliness: no remaining link is stale for its source's maps. -/
def Synced (m : MetadataCache) (S : Graph3DLayout) : Prop :=
  ∀ l ∈ S.graph.links, ∀ L, S.labelOfId l.fromId = some L →
    staleEval m L (S.labelOfId l.toId) = false

/-- Post-state of a full `syncWithCache` call: tables as after
`fromMetadataCache`, invariant and label presence maintained, all links clean,
and all non-stale snapshot pairs present. -/
theorem syncWithCache_post {st : Graph3DLayout} (h : Inv st)
    (m : MetadataCache) :
    Inv (st.syncWithCache m) ∧
    AllLabels m (st.syncWithCache m) ∧
    (st.syncWithCache m).nameToId = (st.fromMetadataCache m).nameToId ∧
    idLabels (st.syncWithCache m) = idLabels (st.fromMetadataCache m) ∧
    Synced m (st.syncWithCache m) ∧
    (∀ entry ∈ m.resolvedLinks ++ m.unresolvedLinks, ∀ p ∈ entry.2,
      staleL m entry.1 p.1 = false →
        pairPresent (st.syncWithCache m) entry.1 p.1) := by
  obtain ⟨h1, _⟩ := fromMetadataCache_grows h m
  have hc1 := fromMetadataCache_allLabels h m
  set st1 := st.fromMetadataCache m with hst1
  have hloop : st.syncWithCache m
      = (keysOf st1.graph.nodes).foldl (Graph3DLayout.syncNode m) st1 := rfl
  obtain ⟨ht1, ht2, ht3, ht4⟩ :=
    syncLoop_tables (keysOf st1.graph.nodes) st1 h1 hc1
  rw [← hloop] at ht1 ht2 ht3 ht4
  refine ⟨ht3, ht4, ht1, ht2, ?_, ?_⟩
  · intro l hl L hL
    have hclean := syncLoop_clean (keysOf st1.graph.nodes) [] st1 h1 hc1
      (by simp)
    have hmem : l.fromId ∈ keysOf st1.graph.nodes := by
      have : l.fromId ∈ keysOf (st.syncWithCache m).graph.nodes :=
        mem_keys_of_labelOfId hL
      rw [← keysOf_idLabels, ht2, keysOf_idLabels] at this
      exact this
    have := hclean l.fromId (by simpa using hmem)
    rw [← hloop] at this
    exact this l hl rfl L hL
  · intro entry he p hp hs
    have hpair : pairPresent st1 entry.1 p.1 :=
      (fromMetadataCache_presence h m entry he).2 p hp
    have := syncLoop_pairs (keysOf st1.graph.nodes) st1 h1 hc1
      entry.1 p.1 hs hpair
    rw [← hloop] at this
    exact this

/-! ## Additions of a second pass over an already-synchronized state -/

theorem hasLink_false_of_extend {st st' : Graph3DLayout}
    (h : LinksExtend st st') {s t : Nat}
    (hf : st'.graph.hasLink s t = false) : st.graph.hasLink s t = false := by
  by_contra hx
  have hx' : st.graph.hasLink s t = true := by
    revert hx
    cases st.graph.hasLink s t <;> simp
  rw [hasLink_of_extend h hx'] at hf
  cases hf

/-- When every listed pair already has its link, `addTargets` changes neither
the tables nor the link list (it only rewrites node payloads). -/
theorem addTargets_no_add {st : Graph3DLayout} (h : Inv st) (srcId : Nat)
    (r : Bool) {ts : TargetMap}
    (hp : ∀ p ∈ ts, ∃ ti, st.handleOf p.1 = some ti ∧
      st.graph.hasLink srcId ti = true) :
    (st.addTargets srcId r ts).nameToId = st.nameToId ∧
    idLabels (st.addTargets srcId r ts) = idLabels st ∧
    (st.addTargets srcId r ts).graph.links = st.graph.links := by
  induction ts generalizing st with
  | nil => exact ⟨rfl, rfl, rfl⟩
  | cons q rest ih =>
      obtain ⟨ti, hti, hlk⟩ := hp q (by simp)
      obtain ⟨ht1, ht2⟩ := addOrGetNode_tables_present h (d := ⟨q.1, r⟩) hti
      obtain ⟨hI1, _⟩ := addOrGetNode_grows h ⟨q.1, r⟩
      set st1 := (st.addOrGetNode ⟨q.1, r⟩).2 with hst1
      have hfst : (st.addOrGetNode ⟨q.1, r⟩).1 = ti := addOrGetNode_fst_present hti
      have hl1 : st1.graph.links = st.graph.links := addOrGetNode_links st ⟨q.1, r⟩
      have hstep : Graph3DLayout.addTargets st srcId r (q :: rest)
          = Graph3DLayout.addTargets (st1.link srcId ti) srcId r rest := by
        simp only [Graph3DLayout.addTargets, List.foldl_cons, ← hst1, hfst]
      have hlk1 : st1.graph.hasLink srcId ti = true := by
        unfold VaultGraph.hasLink at hlk ⊢
        rw [hl1]
        exact hlk
      have heq : st1.link srcId ti = st1 := link_of_hasLink hlk1
      rw [hstep, heq]
      have hp1 : ∀ p ∈ rest, ∃ ti', st1.handleOf p.1 = some ti' ∧
          st1.graph.hasLink srcId ti' = true := by
        intro p hpm
        obtain ⟨ti', h1', h2'⟩ := hp p (by simp [hpm])
        refine ⟨ti', by rw [handleOf_congr ht1]; exact h1', ?_⟩
        unfold VaultGraph.hasLink at h2' ⊢
        rw [hl1]
        exact h2'
      obtain ⟨a, b, c⟩ := ih hI1 hp1
      exact ⟨by rw [a, ht1], by rw [b, ht2], by rw [c, hl1]⟩

/-- Every link appended by `addTargets` (when all target labels are present)
records a listed pair that had no link before the call. -/
theorem addTargets_added {st : Graph3DLayout} (h : Inv st) (srcId : Nat)
    (r : Bool) {ts : TargetMap}
    (hts : ∀ p ∈ ts, (st.handleOf p.1).isSome) :
    ∃ e, (st.addTargets srcId r ts).graph.links = st.graph.links ++ e ∧
      ∀ a ∈ e, a.fromId = srcId ∧ ∃ p, p ∈ ts ∧
        st.handleOf p.1 = some a.toId ∧
        st.graph.hasLink srcId a.toId = false := by
  induction ts generalizing st with
  | nil =>
      refine ⟨[], by simp [Graph3DLayout.addTargets], ?_⟩
      intro a ha
      simp at ha
  | cons q rest ih =>
      obtain ⟨ti, hti⟩ := Option.isSome_iff_exists.mp (hts q (by simp))
      obtain ⟨ht1, ht2⟩ := addOrGetNode_tables_present h (d := ⟨q.1, r⟩) hti
      obtain ⟨hI1, _⟩ := addOrGetNode_grows h ⟨q.1, r⟩
      set st1 := (st.addOrGetNode ⟨q.1, r⟩).2 with hst1
      have hfst : (st.addOrGetNode ⟨q.1, r⟩).1 = ti := addOrGetNode_fst_present hti
      have hl1 : st1.graph.links = st.graph.links := addOrGetNode_links st ⟨q.1, r⟩
      have hstep : Graph3DLayout.addTargets st srcId r (q :: rest)
          = Graph3DLayout.addTargets (st1.link srcId ti) srcId r rest := by
        simp only [Graph3DLayout.addTargets, List.foldl_cons, ← hst1, hfst]
      have hI2 : Inv (st1.link srcId ti) := link_inv hI1 srcId ti
      have hts2 : ∀ p ∈ rest, ((st1.link srcId ti).handleOf p.1).isSome := by
        intro p hpm
        rw [handleOf_congr (link_nameToId st1 srcId ti), handleOf_congr ht1]
        exact hts p (by simp [hpm])
      obtain ⟨e, he, hef⟩ := ih hI2 hts2
      by_cases hc : st1.graph.hasLink srcId ti = true
      · have heq : st1.link srcId ti = st1 := link_of_hasLink hc
        rw [heq] at he hef
        refine ⟨e, by rw [hstep, heq, he, hl1], ?_⟩
        intro a ha
        obtain ⟨haf, p, hpm, hph, hplk⟩ := hef a ha
        refine ⟨haf, p, by simp [hpm], by rw [handleOf_congr ht1] at hph; exact hph, ?_⟩
        unfold VaultGraph.hasLink at hplk ⊢
        rw [hl1] at hplk
        exact hplk
      · have heq := link_of_not_hasLink hc
        have hext : LinksExtend st (st1.link srcId ti) :=
          ⟨[⟨srcId, ti, 2 * st1.graph.getLinkCount⟩], by rw [heq, hl1]⟩
        refine ⟨⟨srcId, ti, 2 * st1.graph.getLinkCount⟩ :: e, ?_, ?_⟩
        · rw [hstep, he, heq, hl1]
          simp
        · intro a ha
          rcases List.mem_cons.mp ha with ha | ha
          · subst ha
            refine ⟨rfl, q, by simp, hti, ?_⟩
            have : st1.graph.hasLink srcId ti = false := by
              revert hc
              cases st1.graph.hasLink srcId ti <;> simp
            unfold VaultGraph.hasLink at this ⊢
            rw [hl1] at this
            exact this
          · obtain ⟨haf, p, hpm, hph, hplk⟩ := hef a ha
            refine ⟨haf, p, by simp [hpm], ?_, ?_⟩
            · rw [handleOf_congr (link_nameToId st1 srcId ti),
                handleOf_congr ht1] at hph
              exact hph
            · exact hasLink_false_of_extend hext hplk

/-- Every link appended by `addLinks` (when all labels are present) records a
listed source/target pair that had no link before the call. -/
theorem addLinks_added {st : Graph3DLayout} (h : Inv st) {lm : LinkMap}
    {r : Bool}
    (hp : ∀ e ∈ lm, (st.handleOf e.1).isSome ∧
      ∀ p ∈ e.2, (st.handleOf p.1).isSome) :
    ∃ e, (st.addLinks lm r).graph.links = st.graph.links ++ e ∧
      ∀ a ∈ e, ∃ L ts t w, (L, ts) ∈ lm ∧ (t, w) ∈ ts ∧
        st.handleOf L = some a.fromId ∧ st.handleOf t = some a.toId ∧
        st.graph.hasLink a.fromId a.toId = false := by
  induction lm generalizing st with
  | nil =>
      refine ⟨[], by simp [Graph3DLayout.addLinks], ?_⟩
      intro a ha
      simp at ha
  | cons q rest ih =>
      obtain ⟨si, hsi⟩ := Option.isSome_iff_exists.mp (hp q (by simp)).1
      obtain ⟨ht1, ht2⟩ := addOrGetNode_tables_present h (d := ⟨q.1, true⟩) hsi
      obtain ⟨hI1, _⟩ := addOrGetNode_grows h ⟨q.1, true⟩
      set st1 := (st.addOrGetNode ⟨q.1, true⟩).2 with hst1
      have hfst : (st.addOrGetNode ⟨q.1, true⟩).1 = si := addOrGetNode_fst_present hsi
      have hl1 : st1.graph.links = st.graph.links := addOrGetNode_links st ⟨q.1, true⟩
      have hstep : Graph3DLayout.addLinks st (q :: rest) r
          = Graph3DLayout.addLinks (st1.addTargets si r q.2) rest r := by
        simp only [Graph3DLayout.addLinks, List.foldl_cons, ← hst1, hfst]
      have hts1 : ∀ p ∈ q.2, (st1.handleOf p.1).isSome := by
        intro p hpm
        rw [handleOf_congr ht1]
        exact (hp q (by simp)).2 p hpm
      obtain ⟨e1, he1, he1f⟩ := addTargets_added hI1 si r hts1
      obtain ⟨ha1, ha2⟩ := addTargets_tables hI1 si r hts1
      obtain ⟨hI2, _⟩ := addTargets_grows hI1 si r q.2
      set st2 := st1.addTargets si r q.2 with hst2
      have hname2 : st2.nameToId = st.nameToId := by rw [ha1, ht1]
      have hid2 : idLabels st2 = idLabels st := by rw [ha2, ht2]
      have hlinks2 : st2.graph.links = st.graph.links ++ e1 := by rw [he1, hl1]
      have hext2 : LinksExtend st st2 := ⟨e1, hlinks2⟩
      have hp2 : ∀ e ∈ rest, (st2.handleOf e.1).isSome ∧
          ∀ p ∈ e.2, (st2.handleOf p.1).isSome := by
        intro e hem
        rw [handleOf_congr hname2]
        obtain ⟨u, v⟩ := hp e (by simp [hem])
        refine ⟨u, fun p hpm => ?_⟩
        rw [handleOf_congr hname2]
        exact v p hpm
      obtain ⟨e2, he2, he2f⟩ := ih hI2 hp2
      refine ⟨e1 ++ e2, by rw [hstep, he2, hlinks2, List.append_assoc], ?_⟩
      intro a ha
      rcases List.mem_append.mp ha with ha | ha
      · obtain ⟨haf, p, hpm, hph, hplk⟩ := he1f a ha
        refine ⟨q.1, q.2, p.1, p.2, by simp, by simpa using hpm, ?_, ?_, ?_⟩
        · rw [haf]
          exact hsi
        · rw [handleOf_congr ht1] at hph
          exact hph
        · rw [haf]
          unfold VaultGraph.hasLink at hplk ⊢
          rw [hl1] at hplk
          exact hplk
      · obtain ⟨L, ts, t, w, hLm, htm, hph1, hph2, hplk⟩ := he2f a ha
        refine ⟨L, ts, t, w, by simp [hLm], htm, ?_, ?_, ?_⟩
        · rw [handleOf_congr hname2] at hph1
          exact hph1
        · rw [handleOf_congr hname2] at hph2
          exact hph2
        · exact hasLink_false_of_extend hext2 hplk

/-- Every link appended by `fromMetadataCache` over a state that already holds
all snapshot labels records a snapshot pair whose link was absent. -/
theorem fromMetadataCache_added {st : Graph3DLayout} (h : Inv st)
    {m : MetadataCache} (hp : AllLabels m st) :
    ∃ e, (st.fromMetadataCache m).graph.links = st.graph.links ++ e ∧
      ∀ a ∈ e, ∃ L ts t w,
        ((L, ts) ∈ m.resolvedLinks ∨ (L, ts) ∈ m.unresolvedLinks) ∧
        (t, w) ∈ ts ∧ st.handleOf L = some a.fromId ∧
        st.handleOf t = some a.toId ∧
        st.graph.hasLink a.fromId a.toId = false := by
  have hpr : ∀ e ∈ m.resolvedLinks, (st.handleOf e.1).isSome ∧
      ∀ p ∈ e.2, (st.handleOf p.1).isSome :=
    fun e he => hp e (List.mem_append_left _ he)
  obtain ⟨e1, he1, he1f⟩ := addLinks_added h (r := true) hpr
  obtain ⟨hn1, hd1⟩ := addLinks_tables h (r := true) hpr
  obtain ⟨hI1, _⟩ := addLinks_grows h m.resolvedLinks true
  set st1 := st.addLinks m.resolvedLinks true with hst1
  have hext1 : LinksExtend st st1 := ⟨e1, he1⟩
  have hpu : ∀ e ∈ m.unresolvedLinks, (st1.handleOf e.1).isSome ∧
      ∀ p ∈ e.2, (st1.handleOf p.1).isSome := by
    intro e he
    rw [handleOf_congr hn1]
    obtain ⟨u, v⟩ := hp e (List.mem_append_right _ he)
    refine ⟨u, fun p hpm => ?_⟩
    rw [handleOf_congr hn1]
    exact v p hpm
  obtain ⟨e2, he2, he2f⟩ := addLinks_added hI1 (r := false) hpu
  refine ⟨e1 ++ e2, ?_, ?_⟩
  · show (st1.addLinks m.unresolvedLinks false).graph.links = _
    rw [he2, he1, List.append_assoc]
  · intro a ha
    rcases List.mem_append.mp ha with ha | ha
    · obtain ⟨L, ts, t, w, hLm, htm, h1, h2, h3⟩ := he1f a ha
      exact ⟨L, ts, t, w, Or.inl hLm, htm, h1, h2, h3⟩
    · obtain ⟨L, ts, t, w, hLm, htm, h1, h2, h3⟩ := he2f a ha
      refine ⟨L, ts, t, w, Or.inr hLm, htm, ?_, ?_, ?_⟩
      · rw [handleOf_congr hn1] at h1
        exact h1
      · rw [handleOf_congr hn1] at h2
        exact h2
      · exact hasLink_false_of_extend hext1 h3

/-! ## Idempotence of `syncWithCache` -/

theorem handleOf_of_labelOfId {st : Graph3DLayout} (h : Inv st) {j : Nat}
    {L : String} (hl : st.labelOfId j = some L) : st.handleOf L = some j := by
  unfold Graph3DLayout.labelOfId at hl
  rcases hk : st.graph.getNode j with _ | d
  · rw [hk] at hl
    cases hl
  · rw [hk] at hl
    simp at hl
    have := h.handle_of_node hk
    rw [hl] at this
    exact this

theorem alookup_isSome_of_mem_keys {α β : Type} [DecidableEq α]
    {l : List (α × β)} {k : α} (h : k ∈ keysOf l) : (alookup l k).isSome := by
  simp only [keysOf, List.mem_map] at h
  obtain ⟨p, hp, hp1⟩ := h
  have : (k, p.2) ∈ l := by
    rw [← hp1]
    simpa using hp
  exact alookup_isSome_of_mem this

/-- Links out of other sources always survive the loop body. -/
theorem syncNode_keeps_other {m : MetadataCache} {T : Graph3DLayout}
    {k : Nat} (h : Inv T) (hc : AllLabels m T) {l : GLink}
    (hl : l ∈ T.graph.links) (hfk : l.fromId ≠ k) :
    l ∈ (Graph3DLayout.syncNode m T k).graph.links := by
  rcases hk : T.graph.getNode k with _ | d
  · rw [syncNode_of_getNode_none hk]
    exact hl
  · obtain ⟨e, _, he⟩ := syncNode_shape h hc hk
    rw [he]
    apply List.mem_filter.mpr
    refine ⟨List.mem_append_left _ hl, ?_⟩
    simp [hfk]

/-- All snapshot pairs of the source `j`'s label already carry links. -/
def PairsReady (m : MetadataCache) (T : Graph3DLayout) (j : Nat) : Prop :=
  ∀ L, T.labelOfId j = some L →
    ∀ p, (p ∈ (alookup m.resolvedLinks L).getD []
        ∨ p ∈ (alookup m.unresolvedLinks L).getD []) →
      ∃ ti, T.handleOf p.1 = some ti ∧ T.graph.hasLink j ti = true

/-- The second run of the `forEachNode` loop: starting from the synchronized
links plus a batch of stale re-additions, it removes exactly that batch. -/
theorem resyncLoop {m : MetadataCache} {S1 : Graph3DLayout}
    (hSync : Synced m S1) :
    ∀ (ids : List Nat) (T : Graph3DLayout) (A : List GLink), Inv T →
      AllLabels m T → T.nameToId = S1.nameToId → idLabels T = idLabels S1 →
      T.graph.links = S1.graph.links ++ A → ids.Nodup →
      (∀ a ∈ A, a.fromId ∈ ids ∧ ∃ L t, S1.labelOfId a.fromId = some L ∧
        S1.labelOfId a.toId = some t ∧ staleL m L t = true) →
      (∀ j ∈ ids, j ∈ keysOf T.graph.nodes) →
      (∀ j ∈ ids, PairsReady m T j) →
      ∃ B, (ids.foldl (Graph3DLayout.syncNode m) T).graph.links
          = S1.graph.links ++ B ∧ ∀ a ∈ B, a ∈ A ∧ a.fromId ∉ ids := by
  intro ids
  induction ids with
  | nil =>
      intro T A _ _ _ _ hlk _ hA _ _
      refine ⟨A, hlk, fun a ha => ⟨ha, ?_⟩⟩
      simp
  | cons k rest ih =>
      intro T A hI hc hname hid hlk hnd hA hkeys hready
      have hknd : k ∉ rest ∧ rest.Nodup := by
        simpa using hnd
      -- the node `k` exists and carries some payload `d`
      have hkey : k ∈ keysOf T.graph.nodes := hkeys k (by simp)
      obtain ⟨d, hd⟩ := Option.isSome_iff_exists.mp
        (alookup_isSome_of_mem_keys hkey)
      have hgd : T.graph.getNode k = some d := hd
      have hLk : T.labelOfId k = some d.label := labelOfId_of_getNode hgd
      -- both addition passes change nothing
      have hreadyk := hready k (by simp) d.label hLk
      have hnordd : ∀ p ∈ (alookup m.resolvedLinks d.label).getD [],
          ∃ ti, T.handleOf p.1 = some ti ∧ T.graph.hasLink k ti = true :=
        fun p hp => hreadyk p (Or.inl hp)
      obtain ⟨hq1, hq2, hq3⟩ := addTargets_no_add hI k true hnordd
      obtain ⟨hIT1, _⟩ := addTargets_grows hI k true
        ((alookup m.resolvedLinks d.label).getD [])
      set T1 := T.addTargets k true ((alookup m.resolvedLinks d.label).getD [])
        with hT1
      have hnordu : ∀ p ∈ (alookup m.unresolvedLinks d.label).getD [],
          ∃ ti, T1.handleOf p.1 = some ti ∧ T1.graph.hasLink k ti = true := by
        intro p hp
        obtain ⟨ti, h1', h2'⟩ := hreadyk p (Or.inr hp)
        refine ⟨ti, by rw [handleOf_congr hq1]; exact h1', ?_⟩
        unfold VaultGraph.hasLink at h2' ⊢
        rw [hq3]
        exact h2'
      obtain ⟨hu1, hu2, hu3⟩ := addTargets_no_add hIT1 k false hnordu
      obtain ⟨hIT2, _⟩ := addTargets_grows hIT1 k false
        ((alookup m.unresolvedLinks d.label).getD [])
      set T2 := T1.addTargets k false
        ((alookup m.unresolvedLinks d.label).getD []) with hT2
      have hT2name : T2.nameToId = T.nameToId := by rw [hu1, hq1]
      have hT2id : idLabels T2 = idLabels T := by rw [hu2, hq2]
      have hT2lk : T2.graph.links = T.graph.links := by rw [hu3, hq3]
      -- the loop body is now exactly the pruning filter
      have hsync : Graph3DLayout.syncNode m T k
          = T2.pruneSource k ((alookup m.resolvedLinks d.label).getD [])
              ((alookup m.unresolvedLinks d.label).getD []) := by
        rw [syncNode_of_getNode_some hgd]
      have hredlk : (Graph3DLayout.syncNode m T k).graph.links
          = T2.graph.links.filter
              (fun l => !(l.fromId == k
                && staleTarget T2.graph
                  ((alookup m.resolvedLinks d.label).getD [])
                  ((alookup m.unresolvedLinks d.label).getD []) l)) := by
        rw [hsync]
        rfl
      -- staleness during the prune is staleness over the labels of `S1`
      have hstb : ∀ l : GLink,
          staleTarget T2.graph ((alookup m.resolvedLinks d.label).getD [])
              ((alookup m.unresolvedLinks d.label).getD []) l
            = staleEval m d.label (S1.labelOfId l.toId) := by
        intro l
        rw [staleTarget_eq_staleEval T2.graph m d.label l]
        have h1 : (T2.graph.getNode l.toId).map GraphNode.label
            = T2.labelOfId l.toId := rfl
        rw [h1, labelOfId_congr hT2id, labelOfId_congr hid]
      have hlabk : S1.labelOfId k = some d.label := by
        rw [← labelOfId_congr hid]
        exact hLk
      -- the filter keeps all of `S1`'s links and drops the batch links at `k`
      have hfiltS1 : S1.graph.links.filter
          (fun l => !(l.fromId == k
            && staleTarget T2.graph ((alookup m.resolvedLinks d.label).getD [])
              ((alookup m.unresolvedLinks d.label).getD []) l))
          = S1.graph.links := by
        apply List.filter_eq_self.mpr
        intro l hl
        by_cases hfk : l.fromId = k
        · have := hSync l hl d.label (by rw [hfk]; exact hlabk)
          rw [hstb l, this]
          simp
        · simp [hfk]
      have hstep : (Graph3DLayout.syncNode m T k).graph.links
          = S1.graph.links ++ A.filter
              (fun l => !(l.fromId == k
                && staleTarget T2.graph
                  ((alookup m.resolvedLinks d.label).getD [])
                  ((alookup m.unresolvedLinks d.label).getD []) l)) := by
        rw [hredlk, hT2lk, hlk, List.filter_append, hfiltS1]
      -- recurse
      obtain ⟨hn1, hn2, hn3⟩ := syncNode_tables hI hc k
      have hcn := syncNode_allLabels hI hc k
      set A1 := A.filter
        (fun l => !(l.fromId == k
          && staleTarget T2.graph ((alookup m.resolvedLinks d.label).getD [])
            ((alookup m.unresolvedLinks d.label).getD []) l)) with hA1
      have hA1sub : ∀ a ∈ A1, a ∈ A ∧ a.fromId ≠ k := by
        intro a ha
        rw [hA1] at ha
        obtain ⟨hmem, hpred⟩ := List.mem_filter.mp ha
        refine ⟨hmem, ?_⟩
        intro hak
        obtain ⟨_, L, t, hsL, hsT, hstale⟩ := hA a hmem
        have hLd : L = d.label := by
          rw [hak, hlabk] at hsL
          simpa using hsL.symm
        rw [hstb a, hsT] at hpred
        simp only [staleEval] at hpred
        rw [hLd] at hstale
        rw [hak, hstale] at hpred
        simp at hpred
      have hrec := ih (Graph3DLayout.syncNode m T k) A1 hn3 hcn
        (by rw [hn1, hname]) (by rw [hn2, hid]) hstep hknd.2
        ?_ ?_ ?_
      · obtain ⟨B, hB1, hB2⟩ := hrec
        rw [List.foldl_cons]
        refine ⟨B, hB1, ?_⟩
        intro a ha
        obtain ⟨ha1, ha2⟩ := hB2 a ha
        obtain ⟨ha3, ha4⟩ := hA1sub a ha1
        refine ⟨ha3, ?_⟩
        simp only [List.mem_cons]
        rintro (hk | hk)
        · exact ha4 hk
        · exact ha2 hk
      · -- batch links still point into the remaining sources
        intro a ha
        obtain ⟨ha1, ha2⟩ := hA1sub a ha
        obtain ⟨hf, rest'⟩ := hA a ha1
        refine ⟨?_, rest'⟩
        rcases List.mem_cons.mp hf with hf | hf
        · exact absurd hf ha2
        · exact hf
      · -- remaining sources still are nodes
        intro j hj
        have := hkeys j (by simp [hj])
        rw [← keysOf_idLabels, hn2, keysOf_idLabels]
        exact this
      · -- their pairs are still linked
        intro j hj L hL p hp
        have hjk : j ≠ k := by
          intro he
          exact hknd.1 (he ▸ hj)
        have hL' : T.labelOfId j = some L := by
          rw [← labelOfId_congr hn2]
          exact hL
        obtain ⟨ti, h1', h2'⟩ := hready j (by simp [hj]) L hL' p hp
        refine ⟨ti, by rw [handleOf_congr hn1]; exact h1', ?_⟩
        obtain ⟨l, hlm, hlf, hlt⟩ := hasLink_iff.mp h2'
        exact hasLink_iff.mpr
          ⟨l, syncNode_keeps_other hI hc hlm (by rw [hlf]; exact hjk), hlf, hlt⟩

theorem nodeCount_eq_idLabels_length (st : Graph3DLayout) :
    st.nodeCount = (idLabels st).length := by
  simp [Graph3DLayout.nodeCount, VaultGraph.getNodeCount, idLabels]

/-- The full idempotence statement: after one `syncWithCache`, a second call
with the same snapshot leaves the label table, the link list, the node count
and the link count unchanged. -/
theorem syncWithCache_second_call {st : Graph3DLayout} (h : Inv st)
    (m : MetadataCache) :
    ((st.syncWithCache m).syncWithCache m).nameToId
        = (st.syncWithCache m).nameToId ∧
    ((st.syncWithCache m).syncWithCache m).graph.links
        = (st.syncWithCache m).graph.links ∧
    ((st.syncWithCache m).syncWithCache m).nodeCount
        = (st.syncWithCache m).nodeCount ∧
    ((st.syncWithCache m).syncWithCache m).linkCount
        = (st.syncWithCache m).linkCount := by
  obtain ⟨hI1, hAL1, _, _, hSync1, hPairs1⟩ := syncWithCache_post h m
  set S1 := st.syncWithCache m with hS1
  obtain ⟨hfn, hfd⟩ := fromMetadataCache_tables hI1 hAL1
  obtain ⟨hIf, _⟩ := fromMetadataCache_grows hI1 m
  have hALf := fromMetadataCache_allLabels hI1 m
  set S2 := S1.fromMetadataCache m with hS2
  obtain ⟨A, hA1, hA2⟩ := fromMetadataCache_added hI1 hAL1
  have hkeys2 : keysOf S2.graph.nodes = keysOf S1.graph.nodes := by
    rw [← keysOf_idLabels, hfd, keysOf_idLabels]
  have hAprops : ∀ a ∈ A, a.fromId ∈ keysOf S2.graph.nodes ∧ ∃ L t,
      S1.labelOfId a.fromId = some L ∧ S1.labelOfId a.toId = some t ∧
      staleL m L t = true := by
    intro a ha
    obtain ⟨L, ts, t, w, hLm, htm, hhl, hht, hlkf⟩ := hA2 a ha
    obtain ⟨dL, hgL, hgLl⟩ := hI1.node_of_handle hhl
    obtain ⟨dt, hgt, hgtl⟩ := hI1.node_of_handle hht
    have hlabL : S1.labelOfId a.fromId = some L := by
      rw [labelOfId_of_getNode hgL, hgLl]
    have hlabT : S1.labelOfId a.toId = some t := by
      rw [labelOfId_of_getNode hgt, hgtl]
    have hstale : staleL m L t = true := by
      by_contra hx
      have hfalse : staleL m L t = false := by
        revert hx
        cases staleL m L t <;> simp
      have hentry : (L, ts) ∈ m.resolvedLinks ++ m.unresolvedLinks := by
        rcases hLm with hLm | hLm
        · exact List.mem_append_left _ hLm
        · exact List.mem_append_right _ hLm
      obtain ⟨si, ti, hsi, hti, hlk⟩ := hPairs1 (L, ts) hentry (t, w) htm hfalse
      rw [hhl] at hsi
      rw [hht] at hti
      have hsi' : si = a.fromId := by simpa using hsi.symm
      have hti' : ti = a.toId := by simpa using hti.symm
      rw [hsi', hti', hlkf] at hlk
      cases hlk
    refine ⟨?_, L, t, hlabL, hlabT, hstale⟩
    rw [hkeys2]
    exact mem_keys_of_labelOfId hlabL
  have hready : ∀ j ∈ keysOf S2.graph.nodes, PairsReady m S2 j := by
    intro j _ L hL p hp
    have hLj : S2.handleOf L = some j := handleOf_of_labelOfId hIf hL
    have hcase : ∃ ts, ((L, ts) ∈ m.resolvedLinks ++ m.unresolvedLinks)
        ∧ p ∈ ts := by
      rcases hp with hp | hp
      · rcases hrl : alookup m.resolvedLinks L with _ | ts
        · rw [hrl] at hp
          simp at hp
        · rw [hrl] at hp
          simp at hp
          exact ⟨ts, List.mem_append_left _ (mem_of_alookup_eq_some hrl), hp⟩
      · rcases hrl : alookup m.unresolvedLinks L with _ | ts
        · rw [hrl] at hp
          simp at hp
        · rw [hrl] at hp
          simp at hp
          exact ⟨ts, List.mem_append_right _ (mem_of_alookup_eq_some hrl), hp⟩
    obtain ⟨ts, hentry, hpm⟩ := hcase
    obtain ⟨si, ti, hsi, hti, hlk⟩ :=
      (fromMetadataCache_presence hI1 m (L, ts) hentry).2 p hpm
    have hsij : si = j := by
      rw [hLj] at hsi
      simpa using hsi.symm
    exact ⟨ti, hti, hsij ▸ hlk⟩
  have hloop : S1.syncWithCache m
      = (keysOf S2.graph.nodes).foldl (Graph3DLayout.syncNode m) S2 := rfl
  obtain ⟨B, hB1, hB2⟩ := resyncLoop hSync1 (keysOf S2.graph.nodes) S2 A hIf
    hALf hfn hfd hA1 hIf.ids_nodup hAprops (fun j hj => hj) hready
  have hBnil : B = [] := by
    rw [List.eq_nil_iff_forall_not_mem]
    intro a ha
    obtain ⟨ha1, ha2⟩ := hB2 a ha
    exact ha2 (hAprops a ha1).1
  rw [← hloop] at hB1
  have hlinks : (S1.syncWithCache m).graph.links = S1.graph.links := by
    rw [hB1, hBnil, List.append_nil]
  obtain ⟨_, _, hpn, hpd, _, _⟩ := syncWithCache_post hI1 m
  refine ⟨by rw [hpn, hfn], hlinks, ?_, ?_⟩
  · rw [nodeCount_eq_idLabels_length, nodeCount_eq_idLabels_length, hpd, hfd]
  · simp [Graph3DLayout.linkCount, VaultGraph.getLinkCount, hlinks]

/-! ## Unconditional monotonicity (no node is ever removed) -/

/-- Pointwise preservation of handles plus append-only node ids; this holds
for every synchronizer operation with no well-formedness assumptions. -/
def WeakStep (st st' : Graph3DLayout) : Prop :=
  (∀ L i, st.handleOf L = some i → st'.handleOf L = some i) ∧
  (∃ e, keysOf st'.graph.nodes = keysOf st.graph.nodes ++ e)

theorem weakStep_refl (st : Graph3DLayout) : WeakStep st st :=
  ⟨fun _ _ h => h, ⟨[], by simp⟩⟩

theorem weakStep_trans {s1 s2 s3 : Graph3DLayout} (h1 : WeakStep s1 s2)
    (h2 : WeakStep s2 s3) : WeakStep s1 s3 := by
  obtain ⟨a1, e1, b1⟩ := h1
  obtain ⟨a2, e2, b2⟩ := h2
  exact ⟨fun L i h => a2 L i (a1 L i h), ⟨e1 ++ e2, by rw [b2, b1, List.append_assoc]⟩⟩

theorem addOrGetNode_weak (st : Graph3DLayout) (d : GraphNode) :
    WeakStep st (st.addOrGetNode d).2 := by
  refine ⟨fun L i h => addOrGetNode_handleOf_mono st d h, ?_⟩
  have hnodes : (st.addOrGetNode d).2.graph.nodes
      = aset st.graph.nodes
          ((alookup st.nameToId d.label).getD st.graph.getNodeCount) d := rfl
  rcases hc : alookup st.graph.nodes
      ((alookup st.nameToId d.label).getD st.graph.getNodeCount) with _ | v
  · exact ⟨[(alookup st.nameToId d.label).getD st.graph.getNodeCount],
      by rw [hnodes, keysOf_aset_of_none _ hc]⟩
  · exact ⟨[], by rw [hnodes, keysOf_aset_of_some _ hc, List.append_nil]⟩

theorem link_weak (st : Graph3DLayout) (s t : Nat) : WeakStep st (st.link s t) := by
  refine ⟨fun L i h => ?_, ⟨[], ?_⟩⟩
  · rw [Graph3DLayout.handleOf, link_nameToId]
    exact h
  · rw [link_nodes, List.append_nil]

theorem foldl_weak {γ : Type} {f : Graph3DLayout → γ → Graph3DLayout}
    (hf : ∀ st x, WeakStep st (f st x)) :
    ∀ (xs : List γ) (st : Graph3DLayout), WeakStep st (xs.foldl f st) := by
  intro xs
  induction xs with
  | nil => exact fun st => weakStep_refl st
  | cons x rest ih => exact fun st => weakStep_trans (hf st x) (ih (f st x))

theorem addTargets_weak (st : Graph3DLayout) (srcId : Nat) (r : Bool)
    (ts : TargetMap) : WeakStep st (st.addTargets srcId r ts) := by
  unfold Graph3DLayout.addTargets
  exact foldl_weak (fun st x =>
    weakStep_trans (addOrGetNode_weak st ⟨x.1, r⟩)
      (link_weak (st.addOrGetNode ⟨x.1, r⟩).2 srcId (st.addOrGetNode ⟨x.1, r⟩).1))
    ts st

theorem addLinks_weak (st : Graph3DLayout) (lm : LinkMap) (r : Bool) :
    WeakStep st (st.addLinks lm r) := by
  unfold Graph3DLayout.addLinks
  exact foldl_weak (fun st x =>
    weakStep_trans (addOrGetNode_weak st ⟨x.1, true⟩)
      (addTargets_weak (st.addOrGetNode ⟨x.1, true⟩).2
        (st.addOrGetNode ⟨x.1, true⟩).1 r x.2))
    lm st

theorem fromMetadataCache_weak (st : Graph3DLayout) (m : MetadataCache) :
    WeakStep st (st.fromMetadataCache m) :=
  weakStep_trans (addLinks_weak st m.resolvedLinks true)
    (addLinks_weak (st.addLinks m.resolvedLinks true) m.unresolvedLinks false)

theorem pruneSource_weak (st : Graph3DLayout) (sourceId : Nat)
    (rT uT : TargetMap) : WeakStep st (st.pruneSource sourceId rT uT) :=
  ⟨fun _ _ h => h, ⟨[], by simp [Graph3DLayout.pruneSource]⟩⟩

theorem syncNode_weak (m : MetadataCache) (st : Graph3DLayout) (k : Nat) :
    WeakStep st (Graph3DLayout.syncNode m st k) := by
  rcases hk : st.graph.getNode k with _ | d
  · rw [syncNode_of_getNode_none hk]
    exact weakStep_refl st
  · rw [syncNode_of_getNode_some hk]
    exact weakStep_trans (weakStep_trans (addTargets_weak st k true _)
      (addTargets_weak _ k false _)) (pruneSource_weak _ k _ _)

theorem syncWithCache_weak (st : Graph3DLayout) (m : MetadataCache) :
    WeakStep st (st.syncWithCache m) := by
  have h1 := fromMetadataCache_weak st m
  have h2 := foldl_weak (syncNode_weak m)
    (keysOf (st.fromMetadataCache m).graph.nodes) (st.fromMetadataCache m)
  exact weakStep_trans h1 h2

theorem nodeCount_le_of_weak {st st' : Graph3DLayout} (h : WeakStep st st') :
    st.nodeCount ≤ st'.nodeCount := by
  obtain ⟨_, e, he⟩ := h
  have : (keysOf st'.graph.nodes).length = (keysOf st.graph.nodes).length + e.length := by
    rw [he, List.length_append]
  simp only [keysOf, List.length_map] at this
  simp [Graph3DLayout.nodeCount, VaultGraph.getNodeCount, this]

/-! ## The claims -/

/-- C1.  Idempotence of incremental sync: for every metadata-cache snapshot
and every well-formed starting state, a second `syncWithCache` call with the
same snapshot right after a first one leaves the label → handle table, the
link list (hence the set of links), the node count and the link count
unchanged. -/
theorem claim_C1_sync_idempotent {st : Graph3DLayout} (h : Inv st)
    (m : MetadataCache) :
    ((st.syncWithCache m).syncWithCache m).nameToId
        = (st.syncWithCache m).nameToId ∧
    ((st.syncWithCache m).syncWithCache m).graph.links
        = (st.syncWithCache m).graph.links ∧
    ((st.syncWithCache m).syncWithCache m).nodeCount
        = (st.syncWithCache m).nodeCount ∧
    ((st.syncWithCache m).syncWithCache m).linkCount
        = (st.syncWithCache m).linkCount :=
  syncWithCache_second_call h m

/-- A sample snapshot for the witnesses. -/
def mWit : MetadataCache :=
  { resolvedLinks := [("a", [("b", 1)]), ("c", [("b", 2), ("d", 1)])],
    unresolvedLinks := [("a", [("x", 1)])] }

/-- Witness for C1 at a concrete state and snapshot. -/
theorem claim_C1_witness :
    ((emptyLayout.syncWithCache mWit).syncWithCache mWit).nameToId
        = (emptyLayout.syncWithCache mWit).nameToId ∧
    ((emptyLayout.syncWithCache mWit).syncWithCache mWit).graph.links
        = (emptyLayout.syncWithCache mWit).graph.links ∧
    ((emptyLayout.syncWithCache mWit).syncWithCache mWit).nodeCount
        = (emptyLayout.syncWithCache mWit).nodeCount ∧
    ((emptyLayout.syncWithCache mWit).syncWithCache mWit).linkCount
        = (emptyLayout.syncWithCache mWit).linkCount :=
  claim_C1_sync_idempotent Inv_empty mWit

/-- Two handles of the same value name the same label. -/
theorem Inv.handle_inj {st : Graph3DLayout} (h : Inv st) {L1 L2 : String}
    {i : Nat} (h1 : st.handleOf L1 = some i) (h2 : st.handleOf L2 = some i) :
    L1 = L2 := by
  obtain ⟨d1, hd1, hl1⟩ := h.node_of_handle h1
  obtain ⟨d2, hd2, hl2⟩ := h.node_of_handle h2
  rw [hd1] at hd2
  have hdd : d1 = d2 := by
    injection hd2
  rw [← hl1, ← hl2, hdd]

/-- C4.  Handle stability and append-only allocation: every label present
before an `addOrGetNode`, `fromMetadataCache` or `syncWithCache` call keeps
its handle; a fresh label is allocated handle `nodeCount` (the operation is
total, hence never fails), the fresh handle is not a live node id, and the
label → handle map stays one-to-one. -/
theorem claim_C4_handle_stability {st : Graph3DLayout} (h : Inv st)
    (m : MetadataCache) (d : GraphNode) :
    (∀ L i, st.handleOf L = some i → (st.addOrGetNode d).2.handleOf L = some i) ∧
    (∀ L i, st.handleOf L = some i →
      (st.fromMetadataCache m).handleOf L = some i) ∧
    (∀ L i, st.handleOf L = some i → (st.syncWithCache m).handleOf L = some i) ∧
    (st.handleOf d.label = none →
      (st.addOrGetNode d).1 = st.nodeCount ∧
      (st.addOrGetNode d).1 ∉ keysOf st.graph.nodes) ∧
    (∀ L1 L2 i, (st.syncWithCache m).handleOf L1 = some i →
      (st.syncWithCache m).handleOf L2 = some i → L1 = L2) := by
  obtain ⟨hI1, _, _, _, _, _⟩ := syncWithCache_post h m
  refine ⟨fun L i hL => addOrGetNode_handleOf_mono st d hL,
    fun L i hL => (fromMetadataCache_weak st m).1 L i hL,
    fun L i hL => (syncWithCache_weak st m).1 L i hL, ?_, ?_⟩
  · intro habs
    refine ⟨addOrGetNode_fst_absent habs, ?_⟩
    rw [addOrGetNode_fst_absent habs, ← alookup_eq_none_iff]
    exact h.count_fresh
  · intro L1 L2 i h1 h2
    exact hI1.handle_inj h1 h2

/-- Witness for C4 at a concrete state, snapshot and node payload. -/
theorem claim_C4_witness :
    (∀ L i, emptyLayout.handleOf L = some i →
      (emptyLayout.addOrGetNode ⟨"n", true⟩).2.handleOf L = some i) ∧
    (∀ L i, emptyLayout.handleOf L = some i →
      (emptyLayout.fromMetadataCache mWit).handleOf L = some i) ∧
    (∀ L i, emptyLayout.handleOf L = some i →
      (emptyLayout.syncWithCache mWit).handleOf L = some i) ∧
    (emptyLayout.handleOf "n" = none →
      (emptyLayout.addOrGetNode ⟨"n", true⟩).1 = emptyLayout.nodeCount ∧
      (emptyLayout.addOrGetNode ⟨"n", true⟩).1 ∉ keysOf emptyLayout.graph.nodes) ∧
    (∀ L1 L2 i, (emptyLayout.syncWithCache mWit).handleOf L1 = some i →
      (emptyLayout.syncWithCache mWit).handleOf L2 = some i → L1 = L2) :=
  claim_C4_handle_stability Inv_empty mWit ⟨"n", true⟩

/-- C10.  Nodes are never removed: `addOrGetNode`, `fromMetadataCache` and
`syncWithCache` preserve every label → handle entry, extend the node-id list
only at its end, and never decrease the node count; only links are ever
removed.  No well-formedness assumption is needed. -/
theorem claim_C10_nodes_never_removed (st : Graph3DLayout) (m : MetadataCache)
    (d : GraphNode) :
    ((∀ L i, st.handleOf L = some i → (st.addOrGetNode d).2.handleOf L = some i) ∧
      (∃ e, keysOf (st.addOrGetNode d).2.graph.nodes
        = keysOf st.graph.nodes ++ e) ∧
      st.nodeCount ≤ (st.addOrGetNode d).2.nodeCount) ∧
    ((∀ L i, st.handleOf L = some i →
        (st.fromMetadataCache m).handleOf L = some i) ∧
      (∃ e, keysOf (st.fromMetadataCache m).graph.nodes
        = keysOf st.graph.nodes ++ e) ∧
      st.nodeCount ≤ (st.fromMetadataCache m).nodeCount) ∧
    ((∀ L i, st.handleOf L = some i → (st.syncWithCache m).handleOf L = some i) ∧
      (∃ e, keysOf (st.syncWithCache m).graph.nodes
        = keysOf st.graph.nodes ++ e) ∧
      st.nodeCount ≤ (st.syncWithCache m).nodeCount) := by
  have h1 := addOrGetNode_weak st d
  have h2 := fromMetadataCache_weak st m
  have h3 := syncWithCache_weak st m
  exact ⟨⟨h1.1, h1.2, nodeCount_le_of_weak h1⟩,
    ⟨h2.1, h2.2, nodeCount_le_of_weak h2⟩,
    ⟨h3.1, h3.2, nodeCount_le_of_weak h3⟩⟩

/-! ## Resolved flags -/

theorem flagOf_addOrGetNode_self (st : Graph3DLayout) (d : GraphNode) :
    (st.addOrGetNode d).2.flagOf d.label = some d.resolved := by
  have h1 := addOrGetNode_handleOf_self st d
  have h2 := addOrGetNode_getNode_self st d
  simp [Graph3DLayout.flagOf, h1, h2]

theorem flagOf_congr {st st' : Graph3DLayout} (h1 : st'.nameToId = st.nameToId)
    (h2 : st'.graph.nodes = st.graph.nodes) (L : String) :
    st'.flagOf L = st.flagOf L := by
  simp [Graph3DLayout.flagOf, Graph3DLayout.handleOf, VaultGraph.getNode, h1, h2]

theorem flagOf_addOrGetNode_other {st : Graph3DLayout} (h : Inv st)
    {d : GraphNode} {L : String} (hne : L ≠ d.label) :
    (st.addOrGetNode d).2.flagOf L = st.flagOf L := by
  have hh : (st.addOrGetNode d).2.handleOf L = st.handleOf L := by
    simp only [Graph3DLayout.addOrGetNode, Graph3DLayout.handleOf]
    exact alookup_aset_of_ne _ _ hne
  rcases hL : st.handleOf L with _ | i
  · simp [Graph3DLayout.flagOf, hh, hL]
  · have hne2 : i ≠ (alookup st.nameToId d.label).getD st.graph.getNodeCount := by
      rcases hd : alookup st.nameToId d.label with _ | j
      · simp only [hd, Option.getD]
        obtain ⟨dd, hdd, _⟩ := h.node_of_handle hL
        have := h.ids_lt _ (mem_of_alookup_eq_some hdd)
        simp only [VaultGraph.getNodeCount]
        omega
      · simp only [hd, Option.getD]
        intro he
        exact hne (h.handle_inj hL (by rw [← he] at hd; exact hd))
    have hg : (st.addOrGetNode d).2.graph.getNode i = st.graph.getNode i := by
      simp only [Graph3DLayout.addOrGetNode, VaultGraph.getNode,
        VaultGraph.addNode]
      exact alookup_aset_of_ne _ _ hne2
    simp [Graph3DLayout.flagOf, hh, hL, hg]

theorem addTargets_keepTrue {st : Graph3DLayout} (h : Inv st) {srcId : Nat}
    {r : Bool} {ts : TargetMap} {L : String}
    (hw : ∀ p ∈ ts, p.1 ≠ L ∨ r = true) (hf : st.flagOf L = some true) :
    (st.addTargets srcId r ts).flagOf L = some true := by
  induction ts generalizing st with
  | nil => exact hf
  | cons q rest ih =>
      have hstep : Graph3DLayout.addTargets st srcId r (q :: rest)
          = Graph3DLayout.addTargets
              ((st.addOrGetNode ⟨q.1, r⟩).2.link srcId (st.addOrGetNode ⟨q.1, r⟩).1)
              srcId r rest := by
        simp [Graph3DLayout.addTargets]
      obtain ⟨hI1, _⟩ := addOrGetNode_grows h ⟨q.1, r⟩
      set st1 := (st.addOrGetNode ⟨q.1, r⟩).2
      set ti := (st.addOrGetNode ⟨q.1, r⟩).1
      have hf1 : st1.flagOf L = some true := by
        by_cases hq : q.1 = L
        · rcases hw q (by simp) with hx | hx
          · exact absurd hq hx
          · subst hx
            rw [← hq]
            exact flagOf_addOrGetNode_self st ⟨q.1, true⟩
        · rw [flagOf_addOrGetNode_other h (fun he => hq he.symm)]
          exact hf
      have hf2 : (st1.link srcId ti).flagOf L = some true := by
        rw [flagOf_congr (link_nameToId st1 srcId ti) (link_nodes st1 srcId ti)]
        exact hf1
      rw [hstep]
      exact ih (link_inv hI1 srcId ti) (fun p hp => hw p (by simp [hp])) hf2

theorem addTargets_establish {st : Graph3DLayout} (h : Inv st) {srcId : Nat}
    {r : Bool} {ts : TargetMap} {L : String} (hmem : L ∈ keysOf ts)
    (hw : ∀ p ∈ ts, p.1 ≠ L ∨ r = true) :
    (st.addTargets srcId r ts).flagOf L = some true := by
  induction ts generalizing st with
  | nil => simp [keysOf] at hmem
  | cons q rest ih =>
      have hstep : Graph3DLayout.addTargets st srcId r (q :: rest)
          = Graph3DLayout.addTargets
              ((st.addOrGetNode ⟨q.1, r⟩).2.link srcId (st.addOrGetNode ⟨q.1, r⟩).1)
              srcId r rest := by
        simp [Graph3DLayout.addTargets]
      obtain ⟨hI1, _⟩ := addOrGetNode_grows h ⟨q.1, r⟩
      set st1 := (st.addOrGetNode ⟨q.1, r⟩).2
      set ti := (st.addOrGetNode ⟨q.1, r⟩).1
      have hI2 : Inv (st1.link srcId ti) := link_inv hI1 srcId ti
      by_cases hq : q.1 = L
      · rcases hw q (by simp) with hx | hx
        · exact absurd hq hx
        · subst hx
          have hf1 : st1.flagOf L = some true := by
            rw [← hq]
            exact flagOf_addOrGetNode_self st ⟨q.1, true⟩
          have hf2 : (st1.link srcId ti).flagOf L = some true := by
            rw [flagOf_congr (link_nameToId st1 srcId ti) (link_nodes st1 srcId ti)]
            exact hf1
          rw [hstep]
          exact addTargets_keepTrue hI2 (fun p hp => hw p (by simp [hp])) hf2
      · have hmem2 : L ∈ keysOf rest := by
          simp only [keysOf, List.map_cons, List.mem_cons] at hmem
          rcases hmem with hmem | hmem
          · exact absurd hmem.symm hq
          · exact hmem
        rw [hstep]
        exact ih hI2 hmem2 (fun p hp => hw p (by simp [hp]))

theorem addLinks_keepTrue {st : Graph3DLayout} (h : Inv st) {lm : LinkMap}
    {r : Bool} {L : String}
    (hw : ∀ e ∈ lm, ∀ p ∈ e.2, p.1 ≠ L ∨ r = true)
    (hf : st.flagOf L = some true) :
    (st.addLinks lm r).flagOf L = some true := by
  induction lm generalizing st with
  | nil => exact hf
  | cons q rest ih =>
      have hstep : Graph3DLayout.addLinks st (q :: rest) r
          = Graph3DLayout.addLinks
              ((st.addOrGetNode ⟨q.1, true⟩).2.addTargets (st.addOrGetNode ⟨q.1, true⟩).1 r q.2)
              rest r := by
        simp [Graph3DLayout.addLinks]
      obtain ⟨hI1, _⟩ := addOrGetNode_grows h ⟨q.1, true⟩
      set st1 := (st.addOrGetNode ⟨q.1, true⟩).2
      set si := (st.addOrGetNode ⟨q.1, true⟩).1
      have hf1 : st1.flagOf L = some true := by
        by_cases hq : q.1 = L
        · subst hq
          exact flagOf_addOrGetNode_self st ⟨q.1, true⟩
        · rw [flagOf_addOrGetNode_other h (fun he => hq he.symm)]
          exact hf
      have hf2 : (st1.addTargets si r q.2).flagOf L = some true :=
        addTargets_keepTrue hI1 (fun p hp => hw q (by simp) p hp) hf1
      obtain ⟨hI2, _⟩ := addTargets_grows hI1 si r q.2
      rw [hstep]
      exact ih hI2 (fun e he p hp => hw e (by simp [he]) p hp) hf2

theorem addLinks_establish {st : Graph3DLayout} (h : Inv st) {lm : LinkMap}
    {r : Bool} {L : String}
    (hw : ∀ e ∈ lm, ∀ p ∈ e.2, p.1 ≠ L ∨ r = true)
    (hL : L ∈ keysOf lm ∨ ∃ e ∈ lm, L ∈ keysOf e.2) :
    (st.addLinks lm r).flagOf L = some true := by
  induction lm generalizing st with
  | nil =>
      exfalso
      rcases hL with hL | ⟨e, he, _⟩
      · simp [keysOf] at hL
      · simp at he
  | cons q rest ih =>
      have hstep : Graph3DLayout.addLinks st (q :: rest) r
          = Graph3DLayout.addLinks
              ((st.addOrGetNode ⟨q.1, true⟩).2.addTargets (st.addOrGetNode ⟨q.1, true⟩).1 r q.2)
              rest r := by
        simp [Graph3DLayout.addLinks]
      obtain ⟨hI1, _⟩ := addOrGetNode_grows h ⟨q.1, true⟩
      set st1 := (st.addOrGetNode ⟨q.1, true⟩).2
      set si := (st.addOrGetNode ⟨q.1, true⟩).1
      obtain ⟨hI2, _⟩ := addTargets_grows hI1 si r q.2
      by_cases hq : q.1 = L
      · have hf1 : st1.flagOf L = some true := by
          subst hq
          exact flagOf_addOrGetNode_self st ⟨q.1, true⟩
        have hf2 : (st1.addTargets si r q.2).flagOf L = some true :=
          addTargets_keepTrue hI1 (fun p hp => hw q (by simp) p hp) hf1
        rw [hstep]
        exact addLinks_keepTrue hI2 (fun e he p hp => hw e (by simp [he]) p hp) hf2
      · by_cases htgt : L ∈ keysOf q.2
        · have hf2 : (st1.addTargets si r q.2).flagOf L = some true :=
            addTargets_establish hI1 htgt (fun p hp => hw q (by simp) p hp)
          rw [hstep]
          exact addLinks_keepTrue hI2
            (fun e he p hp => hw e (by simp [he]) p hp) hf2
        · have hL2 : L ∈ keysOf rest ∨ ∃ e ∈ rest, L ∈ keysOf e.2 := by
            rcases hL with hL | ⟨e, he, hek⟩
            · simp only [keysOf, List.map_cons, List.mem_cons] at hL
              rcases hL with hL | hL
              · exact absurd hL.symm hq
              · exact Or.inl hL
            · rcases List.mem_cons.mp he with he | he
              · exact absurd (he ▸ hek) htgt
              · exact Or.inr ⟨e, he, hek⟩
          rw [hstep]
          exact ih hI2 (fun e he p hp => hw e (by simp [he]) p hp) hL2

theorem syncNode_keepTrue {m : MetadataCache} {T : Graph3DLayout} (h : Inv T)
    {L : String}
    (hnot : ∀ e ∈ m.unresolvedLinks, ∀ p ∈ e.2, p.1 ≠ L)
    (hf : T.flagOf L = some true) (k : Nat) :
    (Graph3DLayout.syncNode m T k).flagOf L = some true := by
  rcases hk : T.graph.getNode k with _ | d
  · rw [syncNode_of_getNode_none hk]
    exact hf
  · rw [syncNode_of_getNode_some hk]
    obtain ⟨hI1, _⟩ := addTargets_grows h k true
      ((alookup m.resolvedLinks d.label).getD [])
    set T1 := T.addTargets k true ((alookup m.resolvedLinks d.label).getD [])
    have hf1 : T1.flagOf L = some true :=
      addTargets_keepTrue h (fun p _ => Or.inr rfl) hf
    have hwu : ∀ p ∈ (alookup m.unresolvedLinks d.label).getD [],
        p.1 ≠ L ∨ false = true := by
      intro p hp
      rcases hu : alookup m.unresolvedLinks d.label with _ | ts
      · rw [hu] at hp
        simp at hp
      · rw [hu] at hp
        simp at hp
        exact Or.inl (hnot (d.label, ts) (mem_of_alookup_eq_some hu) p hp)
    have hf2 : (T1.addTargets k false
        ((alookup m.unresolvedLinks d.label).getD [])).flagOf L = some true :=
      addTargets_keepTrue hI1 hwu hf1
    have hpr : ∀ (S : Graph3DLayout) (srcId : Nat) (rT uT : TargetMap),
        (S.pruneSource srcId rT uT).flagOf L = S.flagOf L := fun _ _ _ _ => rfl
    rw [hpr]
    exact hf2

theorem syncLoop_keepTrue {m : MetadataCache} {L : String}
    (hnot : ∀ e ∈ m.unresolvedLinks, ∀ p ∈ e.2, p.1 ≠ L) :
    ∀ (ids : List Nat) (T : Graph3DLayout), Inv T → AllLabels m T →
      T.flagOf L = some true →
      (ids.foldl (Graph3DLayout.syncNode m) T).flagOf L = some true := by
  intro ids
  induction ids with
  | nil => exact fun T _ _ hf => hf
  | cons k rest ih =>
      intro T h hc hf
      obtain ⟨_, _, h3⟩ := syncNode_tables h hc k
      rw [List.foldl_cons]
      exact ih _ h3 (syncNode_allLabels h hc k)
        (syncNode_keepTrue h hnot hf k)

/-- The label appears as an unresolved target somewhere in the snapshot. -/
def unresolvedTargetIn (m : MetadataCache) (L : String) : Prop :=
  ∃ e ∈ m.unresolvedLinks, L ∈ keysOf e.2

/-- The label appears as a source or as a resolved target in the snapshot. -/
def sourceOrResolvedTarget (m : MetadataCache) (L : String) : Prop :=
  L ∈ keysOf m.resolvedLinks ∨ L ∈ keysOf m.unresolvedLinks ∨
    ∃ e ∈ m.resolvedLinks, L ∈ keysOf e.2

/-- C2 (amended).  Resolved precedence holds only for labels that never occur
as unresolved targets: if a label appears as a source or as a resolved target
in the snapshot and does not appear as an unresolved target anywhere, then
after `fromMetadataCache` and after `syncWithCache` its node carries
`resolved = true`.  (As stated in the spec the claim is false: because
`addOrGetNode` always overwrites the node payload and the unresolved pass
runs last, an unresolved-target occurrence processed after a resolved one
wins; see the counterexample.) -/
theorem claim_C2_amended_resolved_precedence {st : Graph3DLayout} (h : Inv st)
    {m : MetadataCache} {L : String} (happ : sourceOrResolvedTarget m L)
    (hnot : ¬ unresolvedTargetIn m L) :
    (st.fromMetadataCache m).flagOf L = some true ∧
    (st.syncWithCache m).flagOf L = some true := by
  have hnot' : ∀ e ∈ m.unresolvedLinks, ∀ p ∈ e.2, p.1 ≠ L := by
    intro e he p hp hc
    refine hnot ⟨e, he, ?_⟩
    simp only [keysOf, List.mem_map]
    exact ⟨p, hp, hc⟩
  obtain ⟨hI1, _⟩ := addLinks_grows h m.resolvedLinks true
  have hwu : ∀ e ∈ m.unresolvedLinks, ∀ p ∈ e.2, p.1 ≠ L ∨ false = true :=
    fun e he p hp => Or.inl (hnot' e he p hp)
  have hfmc : (st.fromMetadataCache m).flagOf L = some true := by
    rcases happ with happ | happ | happ
    · exact addLinks_keepTrue hI1 hwu
        (addLinks_establish h (fun _ _ _ _ => Or.inr rfl) (Or.inl happ))
    · exact addLinks_establish hI1 hwu (Or.inl happ)
    · exact addLinks_keepTrue hI1 hwu
        (addLinks_establish h (fun _ _ _ _ => Or.inr rfl) (Or.inr happ))
  obtain ⟨hIf, _⟩ := fromMetadataCache_grows h m
  refine ⟨hfmc, ?_⟩
  exact syncLoop_keepTrue hnot' (keysOf (st.fromMetadataCache m).graph.nodes)
    (st.fromMetadataCache m) hIf (fromMetadataCache_allLabels h m) hfmc

/-- The C2 counterexample snapshot: `b` is a resolved target of `a` and an
unresolved target of `c`. -/
def mC2 : MetadataCache :=
  { resolvedLinks := [("a", [("b", 1)])], unresolvedLinks := [("c", [("b", 1)])] }

/-- C2 counterexample: in `mC2` the label `b` appears as a resolved target,
yet after `fromMetadataCache` and after `syncWithCache` its node is marked
unresolved — the unresolved pass runs last and overwrites the flag, so
resolved does not win. -/
theorem claim_C2_counterexample :
    (∃ e ∈ mC2.resolvedLinks, "b" ∈ keysOf e.2) ∧
    (emptyLayout.fromMetadataCache mC2).flagOf "b" = some false ∧
    (emptyLayout.syncWithCache mC2).flagOf "b" = some false := by
  refine ⟨⟨("a", [("b", 1)]), by decide, by decide⟩, by decide, by decide⟩

/-- Witness for the amended C2 at a concrete state and snapshot. -/
theorem claim_C2_witness :
    sourceOrResolvedTarget mWit "b" ∧ ¬ unresolvedTargetIn mWit "b" ∧
    ((emptyLayout.fromMetadataCache mWit).flagOf "b" = some true ∧
      (emptyLayout.syncWithCache mWit).flagOf "b" = some true) := by
  refine ⟨?_, ?_, claim_C2_amended_resolved_precedence Inv_empty ?_ ?_⟩
  · exact Or.inr (Or.inr ⟨("a", [("b", 1)]), by decide, by decide⟩)
  · rintro ⟨e, he, hk⟩
    simp only [mWit, List.mem_singleton] at he
    subst he
    simp [keysOf] at hk
  · exact Or.inr (Or.inr ⟨("a", [("b", 1)]), by decide, by decide⟩)
  · rintro ⟨e, he, hk⟩
    simp only [mWit, List.mem_singleton] at he
    subst he
    simp [keysOf] at hk

/-! ## Provenance of links through a sync -/

/-- The pair `(L, t)` appears in the snapshot, read through record lookup. -/
def pairIn (m : MetadataCache) (L t : String) : Prop :=
  (∃ ts w, alookup m.resolvedLinks L = some ts ∧ (t, w) ∈ ts) ∨
  (∃ ts w, alookup m.unresolvedLinks L = some ts ∧ (t, w) ∈ ts)

/-- The link's endpoints are labelled with a snapshot pair. -/
def SnapLabeled (m : MetadataCache) (S : Graph3DLayout) (l : GLink) : Prop :=
  ∃ L t, S.labelOfId l.fromId = some L ∧ S.labelOfId l.toId = some t ∧
    pairIn m L t

theorem snapLabeled_mono {m : MetadataCache} {S S' : Graph3DLayout}
    (h : StepOk S S') {l : GLink} (hs : SnapLabeled m S l) :
    SnapLabeled m S' l := by
  obtain ⟨L, t, h1, h2, h3⟩ := hs
  exact ⟨L, t, h.labelOfId_mono h1, h.labelOfId_mono h2, h3⟩

/-- Every link of `S` is either one of `base` or labelled with a snapshot
pair. -/
def Provenance (m : MetadataCache) (base : List GLink)
    (S : Graph3DLayout) : Prop :=
  ∀ l ∈ S.graph.links, l ∈ base ∨ SnapLabeled m S l

theorem addTargets_prov {m : MetadataCache} {st : Graph3DLayout}
    {base : List GLink} (h : Inv st) {srcId : Nat} {r : Bool} {ts : TargetMap}
    {L : String} (hsrc : st.labelOfId srcId = some L)
    (hcons : ∀ p ∈ ts, pairIn m L p.1) (hprov : Provenance m base st) :
    Provenance m base (st.addTargets srcId r ts) := by
  induction ts generalizing st with
  | nil => exact hprov
  | cons q rest ih =>
      have hstep : Graph3DLayout.addTargets st srcId r (q :: rest)
          = Graph3DLayout.addTargets
              ((st.addOrGetNode ⟨q.1, r⟩).2.link srcId (st.addOrGetNode ⟨q.1, r⟩).1)
              srcId r rest := by
        simp [Graph3DLayout.addTargets]
      obtain ⟨hI1, hG1⟩ := addOrGetNode_grows h ⟨q.1, r⟩
      set st1 := (st.addOrGetNode ⟨q.1, r⟩).2
      set ti := (st.addOrGetNode ⟨q.1, r⟩).1
      have hI2 : Inv (st1.link srcId ti) := link_inv hI1 srcId ti
      have hstep2 : StepOk st1 (st1.link srcId ti) :=
        StepOk.of_eq (link_nameToId st1 srcId ti) (link_nodes st1 srcId ti)
      have hsrc1 : st1.labelOfId srcId = some L := hG1.1.labelOfId_mono hsrc
      have hsrc2 : (st1.link srcId ti).labelOfId srcId = some L :=
        hstep2.labelOfId_mono hsrc1
      have hti1 : st1.labelOfId ti = some q.1 := by
        rw [Graph3DLayout.labelOfId, addOrGetNode_getNode_self st ⟨q.1, r⟩]
        rfl
      have hti2 : (st1.link srcId ti).labelOfId ti = some q.1 :=
        hstep2.labelOfId_mono hti1
      have hprov2 : Provenance m base (st1.link srcId ti) := by
        intro l hl
        rcases hcl : st1.graph.hasLink srcId ti with _ | _
        · rw [link_of_not_hasLink (by rw [hcl]; exact Bool.false_ne_true)] at hl
          rcases List.mem_append.mp hl with hl | hl
          · have hl0 : l ∈ st.graph.links := by
              rw [← addOrGetNode_links st ⟨q.1, r⟩]
              exact hl
            rcases hprov l hl0 with hb | hb
            · exact Or.inl hb
            · exact Or.inr (snapLabeled_mono (stepOk_trans hG1.1 hstep2) hb)
          · simp at hl
            subst hl
            exact Or.inr ⟨L, q.1, hsrc2, hti2, hcons q (by simp)⟩
        · rw [link_of_hasLink hcl] at hl
          have hl0 : l ∈ st.graph.links := by
            rw [← addOrGetNode_links st ⟨q.1, r⟩]
            exact hl
          rcases hprov l hl0 with hb | hb
          · exact Or.inl hb
          · exact Or.inr (snapLabeled_mono (stepOk_trans hG1.1 hstep2) hb)
      rw [hstep]
      exact ih hI2 hsrc2 (fun p hp => hcons p (by simp [hp])) hprov2

theorem addLinks_prov {m : MetadataCache} {st : Graph3DLayout}
    {base : List GLink} (h : Inv st) {lm : LinkMap} {r : Bool}
    (hmap : ∀ e ∈ lm, ∀ p ∈ e.2, pairIn m e.1 p.1)
    (hprov : Provenance m base st) :
    Provenance m base (st.addLinks lm r) := by
  induction lm generalizing st with
  | nil => exact hprov
  | cons q rest ih =>
      have hstep : Graph3DLayout.addLinks st (q :: rest) r
          = Graph3DLayout.addLinks
              ((st.addOrGetNode ⟨q.1, true⟩).2.addTargets (st.addOrGetNode ⟨q.1, true⟩).1 r q.2)
              rest r := by
        simp [Graph3DLayout.addLinks]
      obtain ⟨hI1, hG1⟩ := addOrGetNode_grows h ⟨q.1, true⟩
      set st1 := (st.addOrGetNode ⟨q.1, true⟩).2
      set si := (st.addOrGetNode ⟨q.1, true⟩).1
      have hsrc1 : st1.labelOfId si = some q.1 := by
        rw [Graph3DLayout.labelOfId, addOrGetNode_getNode_self st ⟨q.1, true⟩]
        rfl
      have hprov1 : Provenance m base st1 := by
        intro l hl
        have hl0 : l ∈ st.graph.links := by
          rw [← addOrGetNode_links st ⟨q.1, true⟩]
          exact hl
        rcases hprov l hl0 with hb | hb
        · exact Or.inl hb
        · exact Or.inr (snapLabeled_mono hG1.1 hb)
      have hprov2 := addTargets_prov (r := r) hI1 hsrc1
        (fun p hp => hmap q (by simp) p hp) hprov1
      obtain ⟨hI2, _⟩ := addTargets_grows hI1 si r q.2
      rw [hstep]
      exact ih hI2 (fun e he p hp => hmap e (by simp [he]) p hp) hprov2

theorem fromMetadataCache_prov {m : MetadataCache} {st : Graph3DLayout}
    (h : Inv st) (hKr : (keysOf m.resolvedLinks).Nodup)
    (hKu : (keysOf m.unresolvedLinks).Nodup) :
    Provenance m st.graph.links (st.fromMetadataCache m) := by
  have hmr : ∀ e ∈ m.resolvedLinks, ∀ p ∈ e.2, pairIn m e.1 p.1 := by
    intro e he p hp
    exact Or.inl ⟨e.2, p.2,
      alookup_of_mem_of_nodup (by simpa using he) hKr, by simpa using hp⟩
  have hmu : ∀ e ∈ m.unresolvedLinks, ∀ p ∈ e.2, pairIn m e.1 p.1 := by
    intro e he p hp
    exact Or.inr ⟨e.2, p.2,
      alookup_of_mem_of_nodup (by simpa using he) hKu, by simpa using hp⟩
  obtain ⟨hI1, _⟩ := addLinks_grows h m.resolvedLinks true
  have h1 : Provenance m st.graph.links (st.addLinks m.resolvedLinks true) :=
    addLinks_prov h hmr (fun l hl => Or.inl hl)
  exact addLinks_prov hI1 hmu h1

theorem pruneSource_inv {st : Graph3DLayout} (h : Inv st) (k : Nat)
    (rT uT : TargetMap) : Inv (st.pruneSource k rT uT) := by
  exact @Inv_congr st (st.pruneSource k rT uT) rfl rfl h

/-- `syncNode` preserves the invariant with no label-presence assumption. -/
theorem syncNode_inv {m : MetadataCache} {T : Graph3DLayout} (h : Inv T)
    (k : Nat) : Inv (Graph3DLayout.syncNode m T k) := by
  rcases hk : T.graph.getNode k with _ | d
  · rw [syncNode_of_getNode_none hk]
    exact h
  · rw [syncNode_of_getNode_some hk]
    obtain ⟨hI1, _⟩ := addTargets_grows h k true
      ((alookup m.resolvedLinks d.label).getD [])
    obtain ⟨hI2, _⟩ := addTargets_grows hI1 k false
      ((alookup m.unresolvedLinks d.label).getD [])
    exact pruneSource_inv hI2 k _ _

theorem syncNode_prov {m : MetadataCache} {T : Graph3DLayout}
    {base : List GLink} (h : Inv T) (hprov : Provenance m base T) (k : Nat) :
    Provenance m base (Graph3DLayout.syncNode m T k) := by
  rcases hk : T.graph.getNode k with _ | d
  · rw [syncNode_of_getNode_none hk]
    exact hprov
  · rw [syncNode_of_getNode_some hk]
    have hsrc : T.labelOfId k = some d.label := labelOfId_of_getNode hk
    have hconsR : ∀ p ∈ (alookup m.resolvedLinks d.label).getD [],
        pairIn m d.label p.1 := by
      intro p hp
      rcases hr : alookup m.resolvedLinks d.label with _ | ts
      · rw [hr] at hp
        simp at hp
      · rw [hr] at hp
        simp at hp
        exact Or.inl ⟨ts, p.2, hr, by simpa using hp⟩
    have hconsU : ∀ p ∈ (alookup m.unresolvedLinks d.label).getD [],
        pairIn m d.label p.1 := by
      intro p hp
      rcases hr : alookup m.unresolvedLinks d.label with _ | ts
      · rw [hr] at hp
        simp at hp
      · rw [hr] at hp
        simp at hp
        exact Or.inr ⟨ts, p.2, hr, by simpa using hp⟩
    obtain ⟨hI1, hG1⟩ := addTargets_grows h k true
      ((alookup m.resolvedLinks d.label).getD [])
    set T1 := T.addTargets k true ((alookup m.resolvedLinks d.label).getD [])
    have hp1 : Provenance m base T1 := addTargets_prov h hsrc hconsR hprov
    have hsrc1 : T1.labelOfId k = some d.label := hG1.1.labelOfId_mono hsrc
    have hp2 := addTargets_prov (r := false) hI1 hsrc1 hconsU hp1
    obtain ⟨hI2, _⟩ := addTargets_grows hI1 k false
      ((alookup m.unresolvedLinks d.label).getD [])
    set T2 := T1.addTargets k false ((alookup m.unresolvedLinks d.label).getD [])
    intro l hl
    have hl2 : l ∈ T2.graph.links := List.mem_of_mem_filter hl
    rcases hp2 l hl2 with hb | hb
    · exact Or.inl hb
    · obtain ⟨L, t, h1, h2, h3⟩ := hb
      exact Or.inr ⟨L, t, h1, h2, h3⟩

theorem syncLoop_prov {m : MetadataCache} {base : List GLink} :
    ∀ (ids : List Nat) (T : Graph3DLayout), Inv T → Provenance m base T →
      Provenance m base (ids.foldl (Graph3DLayout.syncNode m) T) := by
  intro ids
  induction ids with
  | nil => exact fun T _ hp => hp
  | cons k rest ih =>
      intro T h hp
      rw [List.foldl_cons]
      exact ih _ (syncNode_inv h k) (syncNode_prov h hp k)

/-- Every link after `syncWithCache` is a pre-existing link or carries a
snapshot pair (when the snapshot has well-formed record keys). -/
theorem syncWithCache_prov {m : MetadataCache} {st : Graph3DLayout}
    (h : Inv st) (hKr : (keysOf m.resolvedLinks).Nodup)
    (hKu : (keysOf m.unresolvedLinks).Nodup) :
    Provenance m st.graph.links (st.syncWithCache m) := by
  obtain ⟨hI1, _⟩ := fromMetadataCache_grows h m
  exact syncLoop_prov (keysOf (st.fromMetadataCache m).graph.nodes)
    (st.fromMetadataCache m) hI1 (fromMetadataCache_prov h hKr hKu)

/-- Keeping a clean link across the whole loop. -/
theorem syncLoop_keeps {m : MetadataCache} :
    ∀ (ids : List Nat) (T : Graph3DLayout), Inv T → AllLabels m T →
      ∀ l ∈ T.graph.links,
      (∀ L, T.labelOfId l.fromId = some L →
        staleEval m L (T.labelOfId l.toId) = false) →
      l ∈ (ids.foldl (Graph3DLayout.syncNode m) T).graph.links := by
  intro ids
  induction ids with
  | nil => exact fun T _ _ l hl _ => hl
  | cons k rest ih =>
      intro T h hc l hl hkeep
      obtain ⟨_, h2, h3⟩ := syncNode_tables h hc k
      have hc1 := syncNode_allLabels h hc k
      have hmem := syncNode_keeps (k := k) h hc hl hkeep
      have hkeep1 : ∀ L, (Graph3DLayout.syncNode m T k).labelOfId l.fromId = some L →
          staleEval m L ((Graph3DLayout.syncNode m T k).labelOfId l.toId) = false := by
        intro L hL
        rw [labelOfId_congr h2] at hL
        rw [labelOfId_congr h2]
        exact hkeep L hL
      rw [List.foldl_cons]
      exact ih _ h3 hc1 l hmem hkeep1

/-- The tables of the final state extend those of the starting state. -/
theorem syncWithCache_stepOk {st : Graph3DLayout} (h : Inv st)
    (m : MetadataCache) : StepOk st (st.syncWithCache m) := by
  obtain ⟨hI1, _, hpn, hpd, _, _⟩ := syncWithCache_post h m
  obtain ⟨_, hG⟩ := fromMetadataCache_grows h m
  exact stepOk_trans hG.1 ⟨⟨[], by simp [hpn]⟩, ⟨[], by simp [hpd]⟩⟩

/-! ## Weights, truthiness and staleness -/

theorem mergedLookup_mem {rT uT : TargetMap} {t : String} {w : Nat}
    (h : mergedLookup rT uT t = some w) : (t, w) ∈ rT ∨ (t, w) ∈ uT := by
  unfold mergedLookup at h
  rcases hu : alookup uT t with _ | w2
  · rw [hu] at h
    exact Or.inl (mem_of_alookup_eq_some h)
  · rw [hu] at h
    injection h with h2
    subst h2
    exact Or.inr (mem_of_alookup_eq_some hu)

theorem mem_getD_cases {lm : LinkMap} {L : String} {p : String × Nat}
    (h : p ∈ (alookup lm L).getD []) :
    ∃ ts, alookup lm L = some ts ∧ p ∈ ts := by
  rcases hr : alookup lm L with _ | ts
  · rw [hr] at h
    simp at h
  · rw [hr] at h
    exact ⟨ts, rfl, by simpa using h⟩

theorem truthy_isSome {o : Option Nat} (h : truthy o = true) :
    o.isSome = true := by
  cases o
  · simp [truthy] at h
  · rfl

/-- With nonzero weights, a present merged entry is truthy, so the target is
not stale. -/
theorem staleL_false_of_posWeights {m : MetadataCache} {L t : String}
    (hW : ∀ e ∈ m.resolvedLinks ++ m.unresolvedLinks, ∀ p ∈ e.2, p.2 ≠ 0)
    (hs : (mergedLookup ((alookup m.resolvedLinks L).getD [])
        ((alookup m.unresolvedLinks L).getD []) t).isSome = true) :
    staleL m L t = false := by
  obtain ⟨w, hw⟩ := Option.isSome_iff_exists.mp hs
  have hwne : w ≠ 0 := by
    rcases mergedLookup_mem hw with hm | hm
    · obtain ⟨ts, hts, hmem⟩ := mem_getD_cases hm
      exact hW (L, ts) (List.mem_append_left _ (mem_of_alookup_eq_some hts))
        (t, w) hmem
    · obtain ⟨ts, hts, hmem⟩ := mem_getD_cases hm
      exact hW (L, ts) (List.mem_append_right _ (mem_of_alookup_eq_some hts))
        (t, w) hmem
  unfold staleL
  by_cases ht : t = ""
  · simp [ht]
  · simp only [ht, if_false]
    rw [hw]
    simp [truthy, hwne]

/-- A snapshot pair is visible through the merged lookup. -/
theorem pairIn_merged_isSome {m : MetadataCache} {L t : String}
    (h : pairIn m L t) :
    (mergedLookup ((alookup m.resolvedLinks L).getD [])
      ((alookup m.unresolvedLinks L).getD []) t).isSome = true := by
  unfold mergedLookup
  rcases h with ⟨ts, w, hts, hmem⟩ | ⟨ts, w, hts, hmem⟩
  · rcases hu : alookup ((alookup m.unresolvedLinks L).getD []) t with _ | w2
    · rw [hts]
      simp only [Option.getD]
      exact alookup_isSome_of_mem hmem
    · rfl
  · have : (alookup ((alookup m.unresolvedLinks L).getD []) t).isSome = true := by
      rw [hts]
      simp only [Option.getD]
      exact alookup_isSome_of_mem hmem
    obtain ⟨w2, hw2⟩ := Option.isSome_iff_exists.mp this
    rw [hw2]
    rfl

/-- C3 (amended).  Pruning correctness with the JavaScript truthiness caveats:
for a snapshot with well-formed record keys whose weights are all nonzero, and
a starting state with no empty node labels and no dangling link targets, for
every source node `i` present before a `syncWithCache` call: (i) a link from
`i` to a node labelled `t` exists afterwards exactly when `t` occurs in the
merged resolved/unresolved target record of the source's label; (ii) links to
targets still present keep their exact record (payload included, not removed
and recreated); (iii) links to targets absent from the snapshot are removed.
(As stated in the spec the claim is false: the removal test
`!allTargets[targetFile]` treats a weight of `0` as absence, so a pair present
in the snapshot with weight `0` loses its link; see the counterexample.) -/
theorem claim_C3_amended_pruning {st : Graph3DLayout} (h : Inv st)
    {m : MetadataCache}
    (hW : ∀ e ∈ m.resolvedLinks ++ m.unresolvedLinks, ∀ p ∈ e.2, p.2 ≠ 0)
    (hKr : (keysOf m.resolvedLinks).Nodup)
    (hKu : (keysOf m.unresolvedLinks).Nodup)
    (hLab : ∀ p ∈ st.graph.nodes, p.2.label ≠ "")
    (hTgt : ∀ l ∈ st.graph.links, l.toId ∈ keysOf st.graph.nodes)
    {i : Nat} {d : GraphNode} (hn : st.graph.getNode i = some d) :
    (∀ t : String,
      (∃ l ∈ (st.syncWithCache m).graph.links, l.fromId = i ∧
        (st.syncWithCache m).labelOfId l.toId = some t) ↔
      (mergedLookup ((alookup m.resolvedLinks d.label).getD [])
        ((alookup m.unresolvedLinks d.label).getD []) t).isSome = true) ∧
    (∀ l ∈ st.graph.links, l.fromId = i → ∀ t, st.labelOfId l.toId = some t →
      (mergedLookup ((alookup m.resolvedLinks d.label).getD [])
        ((alookup m.unresolvedLinks d.label).getD []) t).isSome = true →
      l ∈ (st.syncWithCache m).graph.links) ∧
    (∀ l ∈ st.graph.links, l.fromId = i → ∀ t, st.labelOfId l.toId = some t →
      (mergedLookup ((alookup m.resolvedLinks d.label).getD [])
        ((alookup m.unresolvedLinks d.label).getD []) t).isSome = false →
      l ∉ (st.syncWithCache m).graph.links) := by
  obtain ⟨hI1, hAL1, _, _, hSync1, hPairs1⟩ := syncWithCache_post h m
  have hstep := syncWithCache_stepOk h m
  have hlabi : (st.syncWithCache m).labelOfId i = some d.label :=
    hstep.labelOfId_mono (labelOfId_of_getNode hn)
  have hhandle1 : (st.syncWithCache m).handleOf d.label = some i :=
    hstep.handleOf_mono (h.handle_of_node hn)
  have hTgtLab : ∀ l ∈ st.graph.links, ∀ t, st.labelOfId l.toId = some t →
      t ≠ "" := by
    intro l hl t ht hte
    obtain ⟨dt, hdt⟩ := Option.isSome_iff_exists.mp
      (alookup_isSome_of_mem_keys (hTgt l hl))
    rw [labelOfId_of_getNode hdt] at ht
    have : dt.label = t := by simpa using ht
    exact hLab (l.toId, dt) (mem_of_alookup_eq_some hdt) (by rw [this, hte])
  refine ⟨?_, ?_, ?_⟩
  · intro t
    constructor
    · rintro ⟨l, hl, hf, ht1⟩
      have hsyncl := hSync1 l hl d.label (by rw [hf]; exact hlabi)
      rw [ht1] at hsyncl
      simp only [staleEval] at hsyncl
      by_cases hte : t = ""
      · rcases syncWithCache_prov h hKr hKu l hl with hold | hsnap
        · obtain ⟨dt, hdt⟩ := Option.isSome_iff_exists.mp
            (alookup_isSome_of_mem_keys (hTgt l hold))
          have hlt : (st.syncWithCache m).labelOfId l.toId = some dt.label :=
            hstep.labelOfId_mono (labelOfId_of_getNode hdt)
          rw [ht1] at hlt
          have : dt.label = t := by simpa using hlt.symm
          exact absurd (by rw [this, hte])
            (fun he => hLab (l.toId, dt) (mem_of_alookup_eq_some hdt) he)
        · obtain ⟨L', t', h1', h2', h3'⟩ := hsnap
          have hL' : L' = d.label := by
            rw [hf, hlabi] at h1'
            simpa using h1'.symm
          have ht' : t' = t := by
            rw [ht1] at h2'
            simpa using h2'.symm
          rw [hL', ht'] at h3'
          exact pairIn_merged_isSome h3'
      · unfold staleL at hsyncl
        simp only [hte, if_false] at hsyncl
        have : truthy (mergedLookup ((alookup m.resolvedLinks d.label).getD [])
            ((alookup m.unresolvedLinks d.label).getD []) t) = true := by
          revert hsyncl
          cases truthy (mergedLookup ((alookup m.resolvedLinks d.label).getD [])
            ((alookup m.unresolvedLinks d.label).getD []) t) <;> simp
        exact truthy_isSome this
    · intro hms
      obtain ⟨w, hw⟩ := Option.isSome_iff_exists.mp hms
      have hmm := mergedLookup_mem hw
      have hentry : ∃ ts, ((d.label, ts) ∈ m.resolvedLinks ++ m.unresolvedLinks)
          ∧ (t, w) ∈ ts := by
        rcases hmm with hm | hm
        · obtain ⟨ts, hts, hmem⟩ := mem_getD_cases hm
          exact ⟨ts, List.mem_append_left _ (mem_of_alookup_eq_some hts), hmem⟩
        · obtain ⟨ts, hts, hmem⟩ := mem_getD_cases hm
          exact ⟨ts, List.mem_append_right _ (mem_of_alookup_eq_some hts), hmem⟩
      obtain ⟨ts, hentry, hmem⟩ := hentry
      have hsl : staleL m d.label t = false := staleL_false_of_posWeights hW hms
      obtain ⟨si, ti, hsi, hti, hlk⟩ :=
        hPairs1 (d.label, ts) hentry (t, w) hmem hsl
      have hsij : si = i := by
        rw [hhandle1] at hsi
        simpa using hsi.symm
      obtain ⟨l, hlm, hlf, hlt⟩ := hasLink_iff.mp hlk
      obtain ⟨dt, hdt, hdtl⟩ := hI1.node_of_handle hti
      refine ⟨l, hlm, by rw [hlf, hsij], ?_⟩
      rw [hlt, labelOfId_of_getNode hdt, hdtl]
  · intro l hl hf t ht hms
    have hsl : staleL m d.label t = false := staleL_false_of_posWeights hW hms
    obtain ⟨hIf, hGf⟩ := fromMetadataCache_grows h m
    obtain ⟨ef, hef⟩ := hGf.2
    have hl1 : l ∈ (st.fromMetadataCache m).graph.links := by
      rw [hef]
      exact List.mem_append_left _ hl
    have hlabi1 : (st.fromMetadataCache m).labelOfId i = some d.label :=
      hGf.1.labelOfId_mono (labelOfId_of_getNode hn)
    have hlabt1 : (st.fromMetadataCache m).labelOfId l.toId = some t :=
      hGf.1.labelOfId_mono ht
    have hkeep : ∀ L, (st.fromMetadataCache m).labelOfId l.fromId = some L →
        staleEval m L ((st.fromMetadataCache m).labelOfId l.toId) = false := by
      intro L hL
      rw [hf, hlabi1] at hL
      have hLd : L = d.label := by simpa using hL.symm
      rw [hlabt1, hLd]
      simpa [staleEval] using hsl
    exact syncLoop_keeps (keysOf (st.fromMetadataCache m).graph.nodes)
      (st.fromMetadataCache m) hIf (fromMetadataCache_allLabels h m) l hl1 hkeep
  · intro l hl hf t ht hms hmem1
    have hsyncl := hSync1 l hmem1 d.label (by rw [hf]; exact hlabi)
    have hlabt1 : (st.syncWithCache m).labelOfId l.toId = some t :=
      hstep.labelOfId_mono ht
    rw [hlabt1] at hsyncl
    simp only [staleEval] at hsyncl
    have hte : t ≠ "" := hTgtLab l hl t ht
    unfold staleL at hsyncl
    simp only [hte, if_false] at hsyncl
    have htr : truthy (mergedLookup ((alookup m.resolvedLinks d.label).getD [])
        ((alookup m.unresolvedLinks d.label).getD []) t) = true := by
      revert hsyncl
      cases truthy (mergedLookup ((alookup m.resolvedLinks d.label).getD [])
        ((alookup m.unresolvedLinks d.label).getD []) t) <;> simp
    rw [truthy_isSome htr] at hms
    cases hms

/-- Snapshot installing the link `a → b` with weight `1`. -/
def mPre : MetadataCache := ⟨[("a", [("b", 1)])], []⟩

/-- The same snapshot, but with weight `0` on the still-present target `b`. -/
def mC3 : MetadataCache := ⟨[("a", [("b", 0)])], []⟩

/-- C3 counterexample: the source node `a` (handle 0) is present before the
call and its target `b` still appears in the snapshot's resolved map, yet
because the recorded weight is `0` (falsy in JavaScript) `syncWithCache`
removes the link `a → b`, leaving no links at all. -/
theorem claim_C3_counterexample :
    (emptyLayout.syncWithCache mPre).graph.links = [⟨0, 1, 0⟩] ∧
    (emptyLayout.syncWithCache mPre).labelOfId 0 = some "a" ∧
    "b" ∈ keysOf ((alookup mC3.resolvedLinks "a").getD []) ∧
    ((emptyLayout.syncWithCache mPre).syncWithCache mC3).graph.links = [] := by
  decide

/-- Witness for the amended C3 at a concrete state and snapshot. -/
theorem claim_C3_witness :
    (∀ t : String,
      (∃ l ∈ ((emptyLayout.syncWithCache mPre).syncWithCache mPre).graph.links,
        l.fromId = 0 ∧
        ((emptyLayout.syncWithCache mPre).syncWithCache mPre).labelOfId l.toId
          = some t) ↔
      (mergedLookup ((alookup mPre.resolvedLinks "a").getD [])
        ((alookup mPre.unresolvedLinks "a").getD []) t).isSome = true) ∧
    (∀ l ∈ (emptyLayout.syncWithCache mPre).graph.links, l.fromId = 0 →
      ∀ t, (emptyLayout.syncWithCache mPre).labelOfId l.toId = some t →
      (mergedLookup ((alookup mPre.resolvedLinks "a").getD [])
        ((alookup mPre.unresolvedLinks "a").getD []) t).isSome = true →
      l ∈ ((emptyLayout.syncWithCache mPre).syncWithCache mPre).graph.links) ∧
    (∀ l ∈ (emptyLayout.syncWithCache mPre).graph.links, l.fromId = 0 →
      ∀ t, (emptyLayout.syncWithCache mPre).labelOfId l.toId = some t →
      (mergedLookup ((alookup mPre.resolvedLinks "a").getD [])
        ((alookup mPre.unresolvedLinks "a").getD []) t).isSome = false →
      l ∉ ((emptyLayout.syncWithCache mPre).syncWithCache mPre).graph.links) :=
  claim_C3_amended_pruning (d := ⟨"a", true⟩) (i := 0)
    (syncWithCache_post Inv_empty mPre).1 (by decide) (by decide) (by decide)
    (by decide) (by decide) (by decide)

/-! ## C5: link slot payloads -/

def mS1 : MetadataCache := ⟨[("a", [("b", 1)]), ("c", [("d", 1)])], []⟩

def mS2 : MetadataCache := ⟨[("a", [("b", 1)]), ("e", [("f", 1)])], []⟩

def mS3 : MetadataCache :=
  ⟨[("a", [("b", 1)]), ("e", [("f", 1)]), ("g", [("h", 1)])], []⟩

/-- The state after syncing the three snapshots in order: the second sync
removes `c → d`, dropping the link count, and the third sync then hands the
fresh link `g → h` the payload `2 * linkCount = 4` already carried by the live
link `e → f`. -/
def collisionState : Graph3DLayout :=
  ((emptyLayout.syncWithCache mS1).syncWithCache mS2).syncWithCache mS3

/-- C5 evaluation at the failing input: after the removal of `c → d`, payload
allocation `2 * getLinkCount()` reuses the slot of a live link — two distinct
live links end up with the same payload `4`, so their vertex-slot pairs are
not disjoint (contradicting the claimed invariant). -/
theorem claim_C5_slot_collision :
    collisionState.graph.links = [⟨0, 1, 0⟩, ⟨4, 5, 4⟩, ⟨6, 7, 4⟩] ∧
    ∃ l1 ∈ collisionState.graph.links, ∃ l2 ∈ collisionState.graph.links,
      l1 ≠ l2 ∧ l1.data = l2.data := by
  decide

/-! ## The renderer buffers (`Graph3DRenderer` in `src/Graph3DRenderer.ts`)

One abstract machine word (a natural) stands for one per-instance transform
record, one per-instance color record, or one vertex record; the grow paths
copy these records wholesale with `TypedArray.set`, so "bit-identical
preservation" is record equality here.  Out-of-range `setMatrixAt`/`setXYZ`
writes vanish, as writes past the end of a typed array do; `List.set` has
exactly this behaviour. -/

/-- `TypedArray.set(src)` at offset 0: overwrite the leading records. -/
def listOverwrite (base src : List Nat) : List Nat :=
  src ++ base.drop src.length

/-- The instanced sphere mesh: capacity (`instanceMatrix.count`), per-instance
transforms, the lazily created `instanceColor` attribute (`null` until
`setColorAt` first runs), and the draw count (`InstancedMesh.count`). -/
structure InstancedMeshS where
  capacity : Nat
  matrices : List Nat
  instanceColor : Option (List Nat)
  drawCount : Nat
deriving DecidableEq

/-- `createSphereMesh`: a fresh `THREE.InstancedMesh` with zeroed matrices,
no instance colors yet, and draw count equal to the capacity. -/
def createSphereMesh (count : Nat) : InstancedMeshS :=
  { capacity := count, matrices := List.replicate count 0,
    instanceColor := none, drawCount := count }

/-- `setColorAt`: create the color attribute (zeroed, at current capacity) on
first use, then write the record. -/
def InstancedMeshS.setColorAt (mesh : InstancedMeshS) (i c : Nat) :
    InstancedMeshS :=
  let colors := mesh.instanceColor.getD (List.replicate mesh.capacity 0)
  { mesh with instanceColor := some (colors.set i c) }

namespace Graph3DRenderer

/-- The growth block of `updateNodePositions`: on overflow allocate a mesh of
twice the capacity, copy the matrices, and copy the colors only under the
guard `this.instancedSpheres.instanceColor && newInstances.instanceColor` —
the fresh mesh's `instanceColor` is `null`, so that branch never fires. -/
def growSpheres (nodeCount : Nat) (mesh : InstancedMeshS) : InstancedMeshS :=
  if mesh.capacity < nodeCount then
    let newSize := 2 * mesh.capacity
    let newInstances := createSphereMesh newSize
    let newInstances :=
      { newInstances with
        matrices := listOverwrite newInstances.matrices mesh.matrices }
    match mesh.instanceColor, newInstances.instanceColor with
    | some oldColor, some newColor =>
        { newInstances with instanceColor := some (listOverwrite newColor oldColor) }
    | _, _ => newInstances
  else mesh

/-- `updateNodePositions`: grow if needed, write each body's transform at its
node id, then set the draw count to the graph's node count.  `bodies` is the
`forEachBody` stream as (node id, transform record) pairs. -/
def updateNodePositions (g : VaultGraph) (bodies : List (Nat × Nat))
    (mesh : InstancedMeshS) : InstancedMeshS :=
  let mesh := growSpheres g.getNodeCount mesh
  let mesh := bodies.foldl
    (fun acc b => { acc with matrices := acc.matrices.set b.1 b.2 }) mesh
  { mesh with drawCount := g.getNodeCount }

/-- The line-segments mesh: vertex records (its position attribute has
`positions.length` vertices) and the draw range set by `setDrawRange`
(absent until first set). -/
structure LinkMeshS where
  positions : List Nat
  drawRangeCount : Option Nat
deriving DecidableEq

/-- `createLinkMesh(linkCount)`: `Float32Array(linkCount * 6)` holds
`2 * linkCount` vertex records. -/
def createLinkMesh (linkCount : Nat) : LinkMeshS :=
  { positions := List.replicate (2 * linkCount) 0, drawRangeCount := none }

/-- The growth block of `updateLinkPositions`: capacity in links is the vertex
count halved; on overflow allocate twice that and copy the raw vertex array. -/
def growLinkMesh (linkCount : Nat) (mesh : LinkMeshS) : LinkMeshS :=
  if mesh.positions.length / 2 < linkCount then
    let newMesh := createLinkMesh (2 * (mesh.positions.length / 2))
    { newMesh with positions := listOverwrite newMesh.positions mesh.positions }
  else mesh

/-- `updateLinkPositions`: grow if needed, write both endpoints of every link
at its slot (`link.data` and `link.data + 1`), then
`setDrawRange(0, 2 * linkCount)`. -/
def updateLinkPositions (g : VaultGraph) (linkPos : GLink → Nat × Nat)
    (mesh : LinkMeshS) : LinkMeshS :=
  let mesh := growLinkMesh g.getLinkCount mesh
  let mesh := g.links.foldl
    (fun acc l =>
      let p := linkPos l
      { acc with
        positions := (acc.positions.set l.data p.1).set (l.data + 1) p.2 })
    mesh
  { mesh with drawRangeCount := some (2 * g.getLinkCount) }

end Graph3DRenderer

/-- The C6 state: one instance whose transform record is `5` and whose color
record is `7`, about to be outgrown by a two-node graph. -/
def meshC6 : InstancedMeshS :=
  let m := (createSphereMesh 1).setColorAt 0 7
  { m with matrices := m.matrices.set 0 5 }

/-- The two-node graph driving the C6 growth. -/
def gC6 : VaultGraph := ⟨[(0, ⟨"a", true⟩), (1, ⟨"b", true⟩)], []⟩

/-- C6 evaluation at the failing input: growing a full instance buffer (one
written transform `5`, one written color `7`) to hold two nodes keeps the
transform bit-identical at index 0, but the written color is dropped — the
new mesh has no `instanceColor` at all, because the copy guard
`old.instanceColor && new.instanceColor` can never fire on a freshly created
mesh.  The claim that every previously written color survives growth is
therefore false on the code. -/
theorem claim_C6_color_loss :
    meshC6.matrices = [5] ∧ meshC6.instanceColor = some [7] ∧
    Graph3DRenderer.updateNodePositions gC6 [] meshC6
      = { capacity := 2, matrices := [5, 0], instanceColor := none,
          drawCount := 2 } := by
  decide

/-- C7 (amended).  Doubling growth: when the count exceeds the capacity the
buffer is replaced by one of exactly twice the old capacity — but a single
update performs exactly one doubling, so the doubled capacity covers the
count only when the count is at most twice the old capacity.  (As stated the
claim is false: if the count more than doubles between two updates, the
capacity after the growth step is still below the count; see the
counterexample.) -/
theorem claim_C7_amended_doubling {mesh : InstancedMeshS} {lmesh : Graph3DRenderer.LinkMeshS}
    {n k c : Nat} (hn : mesh.capacity < n)
    (hk : lmesh.positions.length / 2 < k)
    (hev : lmesh.positions.length = 2 * c) :
    (Graph3DRenderer.growSpheres n mesh).capacity = 2 * mesh.capacity ∧
    (n ≤ 2 * mesh.capacity → n ≤ (Graph3DRenderer.growSpheres n mesh).capacity) ∧
    (Graph3DRenderer.growLinkMesh k lmesh).positions.length
      = 2 * lmesh.positions.length ∧
    (k ≤ 2 * (lmesh.positions.length / 2) →
      k ≤ (Graph3DRenderer.growLinkMesh k lmesh).positions.length / 2) := by
  have hcap : (Graph3DRenderer.growSpheres n mesh).capacity = 2 * mesh.capacity := by
    unfold Graph3DRenderer.growSpheres
    rw [if_pos hn]
    rcases mesh.instanceColor with _ | c0 <;> rfl
  have hlen : (Graph3DRenderer.growLinkMesh k lmesh).positions.length
      = 2 * lmesh.positions.length := by
    unfold Graph3DRenderer.growLinkMesh
    rw [if_pos hk]
    simp only [Graph3DRenderer.createLinkMesh, listOverwrite,
      List.length_append, List.length_drop, List.length_replicate]
    rw [hev]
    simp [Nat.mul_div_cancel_left]
    omega
  refine ⟨hcap, ?_, hlen, ?_⟩
  · intro hle
    rw [hcap]
    exact hle
  · intro hle
    rw [hlen, hev]
    simp [Nat.mul_div_cancel_left] at hle ⊢
    omega

/-- C7 counterexample: with capacity 1 and three nodes, one growth step yields
capacity 2, still below the node count — the graph outgrows the buffer within
that tick. -/
theorem claim_C7_counterexample :
    (Graph3DRenderer.growSpheres 3
      { capacity := 1, matrices := [5], instanceColor := none,
        drawCount := 1 }).capacity = 2 ∧
    ¬ (3 ≤ (Graph3DRenderer.growSpheres 3
      { capacity := 1, matrices := [5], instanceColor := none,
        drawCount := 1 }).capacity) := by
  decide

/-- Witness for the amended C7 at concrete buffers and counts. -/
theorem claim_C7_witness :
    (Graph3DRenderer.growSpheres 2
      { capacity := 1, matrices := [5], instanceColor := none,
        drawCount := 1 }).capacity = 2 * 1 ∧
    (2 ≤ 2 * 1 → 2 ≤ (Graph3DRenderer.growSpheres 2
      { capacity := 1, matrices := [5], instanceColor := none,
        drawCount := 1 }).capacity) ∧
    (Graph3DRenderer.growLinkMesh 2
      { positions := [3, 4], drawRangeCount := none }).positions.length
      = 2 * 2 ∧
    (2 ≤ 2 * (2 / 2) → 2 ≤ (Graph3DRenderer.growLinkMesh 2
      { positions := [3, 4], drawRangeCount := none }).positions.length / 2) := by
  exact @claim_C7_amended_doubling
    { capacity := 1, matrices := [5], instanceColor := none, drawCount := 1 }
    { positions := [3, 4], drawRangeCount := none }
    2 2 1 (by decide) (by decide) (by decide)

/-- C8.  Draw range tracks count, not capacity: after `updateNodePositions`
the instance draw count equals the graph's node count, and after
`updateLinkPositions` the visible vertex range is exactly twice the graph's
link count, whatever the buffer capacities or the number of doublings. -/
theorem claim_C8_draw_range_tracks_count (g : VaultGraph)
    (bodies : List (Nat × Nat)) (mesh : InstancedMeshS)
    (linkPos : GLink → Nat × Nat) (lmesh : Graph3DRenderer.LinkMeshS) :
    (Graph3DRenderer.updateNodePositions g bodies mesh).drawCount
      = g.getNodeCount ∧
    (Graph3DRenderer.updateLinkPositions g linkPos lmesh).drawRangeCount
      = some (2 * g.getLinkCount) :=
  ⟨rfl, rfl⟩

/-! ## `NodeLabel` (`src/renderer/NodeLabel.ts`) and `setNodeLabel` -/

/-- The canvas backing one label: its size and what text (if any) has been
rasterized onto it. -/
structure CanvasS where
  width : Nat
  height : Nat
  drawnText : Option String
deriving DecidableEq

/-- A freshly created, hidden canvas (browser default size), blank. -/
def createCanvas : CanvasS := { width := 300, height := 150, drawnText := none }

/-- A `NodeLabel`: `this.text` (undefined until the first successful
`setText`) and the canvas. -/
structure NodeLabelS where
  text : Option String
  canvas : CanvasS
deriving DecidableEq

/-- `NodeLabel.setText`: bail out when unchanged; if `canvas.getContext("2d")`
returns `null` the failure is reported (`console.error`) and the method
returns, leaving the label blank; otherwise measure, resize and rasterize.
The Boolean result records whether a failure was reported; `measure`
abstracts `ctx.measureText(text).width`.  Nothing on this path throws, so the
embedding is a total function. -/
def NodeLabel.setText (ctx2d : Option Unit) (measure : String → Nat)
    (st : NodeLabelS) (text : String) : NodeLabelS × Bool :=
  if st.text = some text then (st, false)
  else
    match ctx2d with
    | none => (st, true)
    | some _ =>
        ({ text := some text,
           canvas := { width := measure text + 20, height := 68,
                       drawnText := some text } }, false)

/-- The `NodeLabel` constructor: fresh hidden canvas and sprite, then
`setText`. -/
def NodeLabel.create (ctx2d : Option Unit) (measure : String → Nat)
    (text : String) : NodeLabelS × Bool :=
  NodeLabel.setText ctx2d measure { text := none, canvas := createCanvas } text

/-- The renderer's label registry: `nodesData` keyed by node handle, plus the
number of label sprites added to the scene. -/
structure RendererLabels where
  nodesData : List (Nat × NodeLabelS)
  sceneSprites : Nat
deriving DecidableEq

/-- `Graph3DRenderer.setNodeLabel`: reuse the cached label for the handle, or
construct one (adding its sprite to the scene) and register it. -/
def Graph3DRenderer.setNodeLabel (ctx2d : Option Unit)
    (measure : String → Nat) (r : RendererLabels) (nodeId : Nat)
    (labelText : String) : RendererLabels × Bool :=
  match alookup r.nodesData nodeId with
  | some _ => (r, false)
  | none =>
      let res := NodeLabel.create ctx2d measure labelText
      ({ nodesData := aset r.nodesData nodeId res.1,
         sceneSprites := r.sceneSprites + 1 }, res.2)

/-- C9 counterexample: with no 2D context available, `setNodeLabel` still
creates the `NodeLabel` object (blank) and registers it — its sprite is added
to the scene and `nodesData` gains the entry — while the failure is reported.
The claim that "the label is simply not created" is therefore false on the
code; only the text rasterization is skipped. -/
theorem claim_C9_counterexample :
    (Graph3DRenderer.setNodeLabel none (fun _ => 40) ⟨[], 0⟩ 0 "note").1
      = ⟨[(0, { text := none, canvas := createCanvas })], 1⟩ ∧
    (Graph3DRenderer.setNodeLabel none (fun _ => 40) ⟨[], 0⟩ 0 "note").2
      = true := by
  decide

/-- C9 (amended).  Rasterization failure is non-fatal: if acquisition of the
2D context fails, `setText` reports the failure and leaves the label state
untouched (no text drawn, no resize) — it returns normally, never throwing —
and `setNodeLabel` still registers a blank label for the handle without
touching any other handle's label; the rest of the pipeline is unaffected.
(The spec's words "the label is simply not created" do not hold: the blank
label object is created and registered; see the counterexample.) -/
theorem claim_C9_amended_rasterization_failure (measure : String → Nat)
    (st : NodeLabelS) (t : String) (r : RendererLabels) (i : Nat) :
    ((NodeLabel.setText none measure st t).1 = st ∧
      ((NodeLabel.setText none measure st t).2 = true ↔ st.text ≠ some t)) ∧
    (alookup r.nodesData i = none →
      (Graph3DRenderer.setNodeLabel none measure r i t).1.nodesData
        = aset r.nodesData i { text := none, canvas := createCanvas } ∧
      (Graph3DRenderer.setNodeLabel none measure r i t).1.sceneSprites
        = r.sceneSprites + 1 ∧
      (Graph3DRenderer.setNodeLabel none measure r i t).2 = true ∧
      ∀ j, j ≠ i →
        alookup (Graph3DRenderer.setNodeLabel none measure r i t).1.nodesData j
          = alookup r.nodesData j) := by
  constructor
  · unfold NodeLabel.setText
    by_cases h : st.text = some t <;> simp [h]
  · intro hnone
    have hred : Graph3DRenderer.setNodeLabel none measure r i t
        = (⟨aset r.nodesData i ⟨none, createCanvas⟩, r.sceneSprites + 1⟩, true) := by
      unfold Graph3DRenderer.setNodeLabel
      rw [hnone]
      simp [NodeLabel.create, NodeLabel.setText, createCanvas]
    rw [hred]
    refine ⟨rfl, rfl, rfl, fun j hj => ?_⟩
    exact alookup_aset_of_ne _ _ hj

/-- Witness for the amended C9 at a concrete registry and label. -/
theorem claim_C9_witness :
    ((NodeLabel.setText none (fun _ => 40)
        { text := none, canvas := createCanvas } "note").1
      = { text := none, canvas := createCanvas } ∧
      ((NodeLabel.setText none (fun _ => 40)
        { text := none, canvas := createCanvas } "note").2 = true ↔
        ({ text := none, canvas := createCanvas } : NodeLabelS).text
          ≠ some "note")) ∧
    (alookup ([] : List (Nat × NodeLabelS)) 0 = none →
      (Graph3DRenderer.setNodeLabel none (fun _ => 40) ⟨[], 0⟩ 0 "note").1.nodesData
        = aset [] 0 { text := none, canvas := createCanvas } ∧
      (Graph3DRenderer.setNodeLabel none (fun _ => 40) ⟨[], 0⟩ 0 "note").1.sceneSprites
        = 0 + 1 ∧
      (Graph3DRenderer.setNodeLabel none (fun _ => 40) ⟨[], 0⟩ 0 "note").2 = true ∧
      ∀ j, j ≠ 0 →
        alookup (Graph3DRenderer.setNodeLabel none (fun _ => 40) ⟨[], 0⟩ 0 "note").1.nodesData j
          = alookup ([] : List (Nat × NodeLabelS)) j) :=
  claim_C9_amended_rasterization_failure (fun _ => 40)
    { text := none, canvas := createCanvas } "note" ⟨[], 0⟩ 0

end BetterGraph3D
